import Mathlib

/-!
Verification of the bsv-anchors core against its implementation.

The development shallowly embeds the TypeScript sources:

* `src/merkle/tree.ts` — the append-only Merkle tree (`MerkleTree`,
  `hashLeaf`, `hashInternal`, `hashSingle`, `generateProof`,
  `verifyProof`, `rebuildPath`, `canonicalizeCommitment`,
  `sortObjectKeys`);
* `src/store/anchor-store.ts` — the anchor store (`open`, `commit`,
  `prove`, `verifyInclusion`, `recordAnchor`, `buildAnchorPayload`);
* `src/store/database.ts` — the SQLite layer, modelled as a pure
  database state with the relevant read/write operations;
* the P2P proof handler (`checkRateLimit`, `handleRequest`).

SHA-256 is not computed by the embedding: every hash-consuming
operation is parametrised by the hash functions it calls
(`h : α → α → α` for `hashInternal`, a leaf-hash function for
`hashLeaf`), exactly as the TypeScript treats `sha256` as an opaque
primitive.  All structural claims hold for an arbitrary such function.
-/

set_option maxRecDepth 100000

namespace BsvAnchors

-- ===========================================================================
-- Merkle tree (src/merkle/tree.ts)
-- ===========================================================================

/-- `hashSingle` from tree.ts: hash for a virtual right sibling, the left
hash doubled.  `h` stands for `hashInternal`. -/
def hashSingle (h : α → α → α) (x : α) : α := h x x

/-- The in-memory node table `nodes: Map<number, Map<number, string>>`,
modelled as a total function to `Option`: `none` is an absent entry. -/
def NodeMap (α : Type) := Nat → Nat → Option α

/-- Write one entry of the node table (`this.getLevel(level).set(index, v)`). -/
def setNode (ns : NodeMap α) (L i : Nat) (v : α) : NodeMap α :=
  fun L' i' => if L' = L ∧ i' = i then some v else ns L' i'

/-- The `MerkleTree` class state: the node table and `_leafCount`. -/
structure MerkleTree (α : Type) where
  nodes : NodeMap α
  leafCount : Nat

/-- A fresh tree (`new MerkleTree()`): empty node table, zero leaves. -/
def MerkleTree.empty : MerkleTree α := ⟨fun _ _ => none, 0⟩

/-- Search upward from `h` for the first exponent with `n ≤ 2 ^ h`; the
fuel argument keeps the recursion structural, so that the function
computes by plain reduction. -/
def ceilLog2Aux (n : Nat) : Nat → Nat → Nat
  | h, 0 => h
  | h, fuel + 1 => if n ≤ 2 ^ h then h else ceilLog2Aux n (h + 1) fuel

/-- `getHeight()`: `0` for at most one leaf, else `ceil(log2 leafCount)`
(the first `h` with `leafCount ≤ 2 ^ h`; `heightFor_eq_clog` below
identifies it with `Nat.clog 2`). -/
def heightFor (count : Nat) : Nat :=
  if count ≤ 1 then 0 else ceilLog2Aux count 0 count

/-- `rebuildPath` loop, one recursive call per level; the fuel argument
counts the remaining levels (source: `for level in 0..height-1`).  The
source throws when the left child is missing ("Invalid tree state"),
modelled by `none`. -/
def rebuildPathAux (h : α → α → α) :
    NodeMap α → Nat → Nat → Nat → Option (NodeMap α)
  | ns, _, 0, _ => some ns
  | ns, level, fuel + 1, currentIndex =>
    let parentIndex := currentIndex / 2
    let leftChildIndex := parentIndex * 2
    let rightChildIndex := leftChildIndex + 1
    match ns level leftChildIndex, ns level rightChildIndex with
    | some leftHash, some rightHash =>
      rebuildPathAux h (setNode ns (level + 1) parentIndex (h leftHash rightHash))
        (level + 1) fuel parentIndex
    | some leftHash, none =>
      rebuildPathAux h (setNode ns (level + 1) parentIndex (hashSingle h leftHash))
        (level + 1) fuel parentIndex
    | none, _ => none

/-- `addLeafHash(hash)`: store the hash at `(0, leafCount)`, bump the
count, rebuild the path to the root.  Returns the new tree and the index. -/
def MerkleTree.addLeafHash (h : α → α → α) (t : MerkleTree α) (v : α) :
    Option (MerkleTree α × Nat) :=
  let index := t.leafCount
  let ns := setNode t.nodes 0 index v
  let newCount := t.leafCount + 1
  match rebuildPathAux h ns 0 (heightFor newCount) index with
  | some ns' => some (⟨ns', newCount⟩, index)
  | none => none

/-- `addLeaf(data)`: hash the data with `hashLeaf` (here, the parameter
`hashLeafFn`) and append the hash. -/
def MerkleTree.addLeaf (hashLeafFn : β → α) (h : α → α → α)
    (t : MerkleTree α) (data : β) : Option (MerkleTree α × α × Nat) :=
  match t.addLeafHash h (hashLeafFn data) with
  | some (t', index) => some (t', hashLeafFn data, index)
  | none => none

/-- `getRoot()`: `null` on an empty tree, else the entry at
`(height, 0)`. -/
def MerkleTree.getRoot (t : MerkleTree α) : Option α :=
  if t.leafCount = 0 then none
  else t.nodes (heightFor t.leafCount) 0

/-- Sibling position in a proof: the source's `'left' | 'right'`. -/
inductive Position where
  | left
  | right
deriving DecidableEq, Repr

/-- One entry of `siblings` in a `MerkleProof`. -/
structure ProofSibling (α : Type) where
  hash : α
  position : Position
deriving DecidableEq

/-- The `MerkleProof` record from types.ts. -/
structure MerkleProof (α : Type) where
  leafHash : α
  leafIndex : Nat
  siblings : List (ProofSibling α)
  rootHash : α
deriving DecidableEq

/-- The sibling-collecting loop of `generateProof`: at each level take
the node at `currentIndex ^ 1` if present, else the node's own hash with
position `right`; then move to the parent.  The non-null assertion
`get(currentIndex)!` of the source is modelled by `none` on failure. -/
def generateProofAux (t : MerkleTree α) :
    Nat → Nat → Nat → List (ProofSibling α) → Option (List (ProofSibling α))
  | _, 0, _, acc => some acc
  | level, fuel + 1, currentIndex, acc =>
    let siblingIndex := currentIndex ^^^ 1
    match t.nodes level siblingIndex with
    | some siblingHash =>
      let pos := if currentIndex % 2 = 0 then Position.right else Position.left
      generateProofAux t (level + 1) fuel (currentIndex / 2) (acc ++ [⟨siblingHash, pos⟩])
    | none =>
      match t.nodes level currentIndex with
      | some selfHash =>
        generateProofAux t (level + 1) fuel (currentIndex / 2) (acc ++ [⟨selfHash, .right⟩])
      | none => none

/-- `generateProof(leafIndex)`: `null` for an out-of-range index or an
empty tree, else the leaf hash, the collected siblings and the current
root.  (`leafIndex < 0` cannot arise for a `Nat` index.) -/
def MerkleTree.generateProof (t : MerkleTree α) (leafIndex : Nat) :
    Option (MerkleProof α) :=
  if leafIndex < t.leafCount then
    match t.getRoot with
    | none => none
    | some root =>
      match t.nodes 0 leafIndex with
      | none => none
      | some leafHash =>
        match generateProofAux t 0 (heightFor t.leafCount) leafIndex [] with
        | some siblings => some ⟨leafHash, leafIndex, siblings, root⟩
        | none => none
  else none

/-- The fold inside `verifyProof`: `left` siblings hash on the left of the
accumulator, `right` siblings on the right. -/
def foldSiblings (h : α → α → α) (siblings : List (ProofSibling α)) (leafHash : α) : α :=
  siblings.foldl
    (fun currentHash s =>
      match s.position with
      | .left => h s.hash currentHash
      | .right => h currentHash s.hash)
    leafHash

/-- `MerkleTree.verifyProof`: fold the siblings from the leaf and compare
with the claimed root. -/
def verifyProof [DecidableEq α] (h : α → α → α) (proof : MerkleProof α) : Bool :=
  decide (foldSiblings h proof.siblings proof.leafHash = proof.rootHash)

/-- Build a tree by appending the given leaf hashes in order to an empty
tree (the `addLeafHash` loop of `AnchorStore.open`). -/
def buildTreeAux (h : α → α → α) (t : MerkleTree α) : List α → Option (MerkleTree α)
  | [] => some t
  | v :: vs =>
    match t.addLeafHash h v with
    | some (t', _) => buildTreeAux h t' vs
    | none => none

/-- Tree obtained by appending `leaves` to an empty tree. -/
def buildTree (h : α → α → α) (leaves : List α) : Option (MerkleTree α) :=
  buildTreeAux h MerkleTree.empty leaves

-- ===========================================================================
-- Specification of the node values, and the tree invariant
-- ===========================================================================

/-- Intended value of the node at `(L, i)` for the leaf sequence
`leaves`: leaves at level 0; at higher levels the internal hash of the
two children, duplicating the left child when the right is absent
(the rightmost-path rule). -/
def nodeHash (h : α → α → α) (leaves : List α) : Nat → Nat → Option α
  | 0, i => leaves.get? i
  | L + 1, i =>
    match nodeHash h leaves L (2 * i), nodeHash h leaves L (2 * i + 1) with
    | some a, some b => some (h a b)
    | some a, none => some (h a a)
    | none, _ => none

/-- Invariant tying a concrete tree to the leaf sequence it was built
from: the count matches, levels up to the height carry exactly the
specified node values, and higher levels are empty. -/
def TreeInv (h : α → α → α) (leaves : List α) (t : MerkleTree α) : Prop :=
  t.leafCount = leaves.length ∧
  t.nodes = fun L i =>
    if L ≤ heightFor leaves.length then nodeHash h leaves L i else none

-- ===========================================================================
-- Arithmetic helpers
-- ===========================================================================

theorem ceilLog2Aux_eq_clog (n : Nat) (hn : 2 ≤ n) :
    ∀ fuel h : Nat, Nat.clog 2 n ≤ h + fuel → h ≤ Nat.clog 2 n →
      ceilLog2Aux n h fuel = Nat.clog 2 n := by
  intro fuel
  induction fuel with
  | zero =>
    intro h h1 h2
    have : h = Nat.clog 2 n := by omega
    simp [ceilLog2Aux, this]
  | succ fuel ih =>
    intro h h1 h2
    simp only [ceilLog2Aux]
    by_cases hle : n ≤ 2 ^ h
    · have hch : Nat.clog 2 n ≤ h := (Nat.le_pow_iff_clog_le (by norm_num)).mp hle
      rw [if_pos hle]
      omega
    · have hch : ¬ Nat.clog 2 n ≤ h := by
        intro hc
        exact hle ((Nat.le_pow_iff_clog_le (by norm_num)).mpr hc)
      rw [if_neg hle]
      exact ih (h + 1) (by omega) (by omega)

theorem heightFor_eq_clog (n : Nat) : heightFor n = Nat.clog 2 n := by
  by_cases hn : n ≤ 1
  · rcases Nat.le_one_iff_eq_zero_or_eq_one.mp hn with rfl | rfl <;>
      simp [heightFor, Nat.clog_one_right]
  · have h2 : 2 ≤ n := by omega
    have hclog : Nat.clog 2 n ≤ n := by
      refine (Nat.le_pow_iff_clog_le (by norm_num)).mp ?_
      exact le_of_lt (Nat.lt_two_pow n)
    simp only [heightFor, if_neg hn]
    exact ceilLog2Aux_eq_clog n h2 n 0 (by omega) (by omega)

theorem le_pow_heightFor (n : Nat) : n ≤ 2 ^ heightFor n := by
  rw [heightFor_eq_clog]
  exact Nat.le_pow_clog (by norm_num) n

theorem heightFor_mono {m n : Nat} (hmn : m ≤ n) : heightFor m ≤ heightFor n := by
  rw [heightFor_eq_clog, heightFor_eq_clog]
  exact Nat.clog_mono_right _ hmn

theorem heightFor_succ_le (n : Nat) : heightFor (n + 1) ≤ heightFor n + 1 := by
  rw [heightFor_eq_clog, heightFor_eq_clog]
  refine (Nat.le_pow_iff_clog_le (by norm_num)).mp ?_
  have h1 : n ≤ 2 ^ Nat.clog 2 n := Nat.le_pow_clog (by norm_num) n
  have h2 : 0 < 2 ^ Nat.clog 2 n := Nat.pos_pow_of_pos _ (by norm_num)
  have h3 : 2 ^ (Nat.clog 2 n + 1) = 2 ^ Nat.clog 2 n * 2 := pow_succ 2 _
  omega

theorem two_mul_xor_one (m : Nat) : 2 * m ^^^ 1 = 2 * m + 1 := by
  have h := Nat.xor_bit false m true 0
  simpa [Nat.bit_val] using h

theorem two_mul_add_one_xor_one (m : Nat) : (2 * m + 1) ^^^ 1 = 2 * m := by
  have h := Nat.xor_bit true m true 0
  simpa [Nat.bit_val] using h

theorem get?_isSome_iff (l : List α) (n : Nat) :
    (l.get? n).isSome = true ↔ n < l.length := by
  rw [List.get?_eq_getElem?]
  constructor
  · intro hs
    by_contra hn
    rw [List.getElem?_eq_none (by omega)] at hs
    simp at hs
  · intro hn
    rw [List.getElem?_eq_getElem hn]
    rfl

-- ===========================================================================
-- Support of the specified node values
-- ===========================================================================

theorem nodeHash_isSome (h : α → α → α) (leaves : List α) :
    ∀ L i : Nat, (nodeHash h leaves L i).isSome = true ↔ i * 2 ^ L < leaves.length := by
  intro L
  induction L with
  | zero =>
    intro i
    simpa [nodeHash] using get?_isSome_iff leaves i
  | succ L ih =>
    intro i
    have key := ih (2 * i)
    have harith : 2 * i * 2 ^ L = i * 2 ^ (L + 1) := by ring
    rw [harith] at key
    cases ha : nodeHash h leaves L (2 * i) with
    | some a =>
      have hlt : i * 2 ^ (L + 1) < leaves.length := by rw [← key]; simp [ha]
      cases hb : nodeHash h leaves L (2 * i + 1) <;> simp [nodeHash, ha, hb, hlt]
    | none =>
      have hlt : ¬ i * 2 ^ (L + 1) < leaves.length := by rw [← key]; simp [ha]
      simp [nodeHash, ha, hlt]

theorem nodeHash_eq_some (h : α → α → α) (leaves : List α) (L i : Nat)
    (hlt : i * 2 ^ L < leaves.length) : ∃ a, nodeHash h leaves L i = some a := by
  have := (nodeHash_isSome h leaves L i).mpr hlt
  exact Option.isSome_iff_exists.mp this

theorem nodeHash_eq_none (h : α → α → α) (leaves : List α) (L i : Nat)
    (hge : leaves.length ≤ i * 2 ^ L) : nodeHash h leaves L i = none := by
  have := nodeHash_isSome h leaves L i
  cases hv : nodeHash h leaves L i with
  | none => rfl
  | some a => rw [hv] at this; simp at this; omega

/-- Appending a leaf changes only the nodes on the rightmost path, i.e.
those at index `leaves.length / 2 ^ L` of their level. -/
theorem nodeHash_append_of_ne (h : α → α → α) (leaves : List α) (v : α) :
    ∀ L i : Nat, i ≠ leaves.length / 2 ^ L →
      nodeHash h (leaves ++ [v]) L i = nodeHash h leaves L i := by
  intro L
  induction L with
  | zero =>
    intro i hi
    rw [pow_zero, Nat.div_one] at hi
    rcases Nat.lt_or_ge i leaves.length with hlt | hge
    · simp only [nodeHash, List.get?_eq_getElem?]
      rw [List.getElem?_append_left hlt]
    · have hgt : leaves.length < i := by omega
      have hlen : (leaves ++ [v]).length = leaves.length + 1 := by simp
      simp only [nodeHash, List.get?_eq_getElem?]
      rw [List.getElem?_eq_none (by omega), List.getElem?_eq_none (by omega)]
  | succ L ih =>
    intro i hi
    have hL : leaves.length / 2 ^ (L + 1) = leaves.length / 2 ^ L / 2 := by
      rw [Nat.div_div_eq_div_mul, pow_succ]
    have h1 : 2 * i ≠ leaves.length / 2 ^ L := by
      intro he; apply hi; rw [hL, ← he]; omega
    have h2 : 2 * i + 1 ≠ leaves.length / 2 ^ L := by
      intro he; apply hi; rw [hL, ← he]; omega
    simp [nodeHash, ih _ h1, ih _ h2]

theorem nodeHash_append_self (h : α → α → α) (leaves : List α) (v : α) :
    nodeHash h (leaves ++ [v]) 0 leaves.length = some v := by
  simp [nodeHash, List.get?_eq_getElem?]

-- ===========================================================================
-- The node map during `rebuildPath`
-- ===========================================================================

/-- Node map after the first `ℓ` iterations of the `rebuildPath` loop
when appending `v` to a tree holding `leaves`: levels up to `ℓ` carry the
new value on the rightmost path; everything else still carries the old
tree's values. -/
def midNodes (h : α → α → α) (leaves : List α) (v : α) (ℓ : Nat) : NodeMap α :=
  fun L i =>
    if L ≤ ℓ ∧ i = leaves.length / 2 ^ L then nodeHash h (leaves ++ [v]) L i
    else if L ≤ heightFor leaves.length then nodeHash h leaves L i
    else none

theorem midNodes_step (h : α → α → α) (leaves : List α) (v : α) (ℓ : Nat) (val : α)
    (hval : nodeHash h (leaves ++ [v]) (ℓ + 1) (leaves.length / 2 ^ (ℓ + 1)) = some val) :
    setNode (midNodes h leaves v ℓ) (ℓ + 1) (leaves.length / 2 ^ (ℓ + 1)) val =
      midNodes h leaves v (ℓ + 1) := by
  funext L i
  simp only [setNode, midNodes]
  by_cases hset : L = ℓ + 1 ∧ i = leaves.length / 2 ^ (ℓ + 1)
  · obtain ⟨rfl, rfl⟩ := hset
    rw [if_pos ⟨rfl, rfl⟩, if_pos ⟨le_refl _, rfl⟩, hval]
  · rw [if_neg hset]
    by_cases hc : L ≤ ℓ ∧ i = leaves.length / 2 ^ L
    · rw [if_pos hc, if_pos ⟨by omega, hc.2⟩]
    · have hc' : ¬(L ≤ ℓ + 1 ∧ i = leaves.length / 2 ^ L) := by
        intro hcc
        rcases Nat.lt_or_ge L (ℓ + 1) with hlt | hge
        · exact hc ⟨by omega, hcc.2⟩
        · have hL : L = ℓ + 1 := by omega
          exact hset ⟨hL, by rw [hcc.2, hL]⟩
      rw [if_neg hc, if_neg hc']

/-- The `rebuildPath` loop, started at level `ℓ` on the mixed node map,
runs to completion and fully installs the new rightmost path. -/
theorem rebuildPathAux_correct (h : α → α → α) (leaves : List α) (v : α) :
    ∀ fuel ℓ : Nat, ℓ + fuel = heightFor (leaves.length + 1) →
      rebuildPathAux h (midNodes h leaves v ℓ) ℓ fuel (leaves.length / 2 ^ ℓ) =
        some (midNodes h leaves v (heightFor (leaves.length + 1))) := by
  intro fuel
  induction fuel with
  | zero =>
    intro ℓ hfl
    rw [Nat.add_zero] at hfl
    subst hfl
    rfl
  | succ fuel ih =>
    intro ℓ hfl
    have hlH : ℓ ≤ heightFor leaves.length := by
      have h1 := heightFor_succ_le leaves.length
      omega
    have hparent : leaves.length / 2 ^ ℓ / 2 = leaves.length / 2 ^ (ℓ + 1) := by
      rw [Nat.div_div_eq_div_mul, pow_succ]
    -- the left child always has a value in the new tree
    have hleft_lt : leaves.length / 2 ^ (ℓ + 1) * 2 * 2 ^ ℓ < (leaves ++ [v]).length := by
      have h1 : leaves.length / 2 ^ (ℓ + 1) * 2 * 2 ^ ℓ
          = leaves.length / 2 ^ (ℓ + 1) * 2 ^ (ℓ + 1) := by ring
      have h2 : leaves.length / 2 ^ (ℓ + 1) * 2 ^ (ℓ + 1) ≤ leaves.length :=
        Nat.div_mul_le_self _ _
      simp only [List.length_append, List.length_singleton]
      omega
    obtain ⟨a, ha⟩ := nodeHash_eq_some h (leaves ++ [v]) ℓ _ hleft_lt
    -- at level ℓ the mixed map agrees everywhere with the new tree's values
    have hread : ∀ j, midNodes h leaves v ℓ ℓ j = nodeHash h (leaves ++ [v]) ℓ j := by
      intro j
      by_cases hjc : j = leaves.length / 2 ^ ℓ
      · subst hjc
        simp [midNodes]
      · simp only [midNodes]
        rw [if_neg (by intro hcc; exact hjc hcc.2), if_pos hlH,
          nodeHash_append_of_ne h leaves v ℓ j hjc]
    have hnode1 : nodeHash h (leaves ++ [v]) (ℓ + 1) (leaves.length / 2 ^ (ℓ + 1)) =
        match nodeHash h (leaves ++ [v]) ℓ (leaves.length / 2 ^ (ℓ + 1) * 2),
          nodeHash h (leaves ++ [v]) ℓ (leaves.length / 2 ^ (ℓ + 1) * 2 + 1) with
        | some x, some y => some (h x y)
        | some x, none => some (h x x)
        | none, _ => none := by
      rw [show leaves.length / 2 ^ (ℓ + 1) * 2 = 2 * (leaves.length / 2 ^ (ℓ + 1)) from by
        ring]
      rfl
    -- unfold one loop iteration
    simp only [rebuildPathAux]
    rw [hparent, hread, hread, ha]
    cases hb : nodeHash h (leaves ++ [v]) ℓ (leaves.length / 2 ^ (ℓ + 1) * 2 + 1) with
    | some b =>
      dsimp only
      rw [midNodes_step h leaves v ℓ (h a b) (by rw [hnode1, ha, hb])]
      exact ih (ℓ + 1) (by omega)
    | none =>
      dsimp only
      rw [midNodes_step h leaves v ℓ (hashSingle h a) (by rw [hnode1, ha, hb]; rfl)]
      exact ih (ℓ + 1) (by omega)

/-- After the loop finishes, the mixed map is exactly the invariant map of
the extended leaf sequence. -/
theorem midNodes_final (h : α → α → α) (leaves : List α) (v : α) :
    midNodes h leaves v (heightFor (leaves.length + 1)) =
      fun L i =>
        if L ≤ heightFor (leaves.length + 1) then nodeHash h (leaves ++ [v]) L i
        else none := by
  funext L i
  simp only [midNodes]
  by_cases hc1 : L ≤ heightFor (leaves.length + 1) ∧ i = leaves.length / 2 ^ L
  · rw [if_pos hc1, if_pos hc1.1]
  · rw [if_neg hc1]
    by_cases hL' : L ≤ heightFor (leaves.length + 1)
    · have hi : i ≠ leaves.length / 2 ^ L := fun he => hc1 ⟨hL', he⟩
      by_cases hLH : L ≤ heightFor leaves.length
      · rw [if_pos hLH, if_pos hL', nodeHash_append_of_ne h leaves v L i hi]
      · rw [if_neg hLH, if_pos hL']
        -- above the old height an off-path node has no value in the new tree
        have hpow : leaves.length < 2 ^ L := by
          have h1 := le_pow_heightFor leaves.length
          have h2 : heightFor leaves.length < L := by omega
          have h3 : 2 ^ heightFor leaves.length < 2 ^ L :=
            Nat.pow_lt_pow_right (by norm_num) h2
          omega
        have hge : (leaves ++ [v]).length ≤ i * 2 ^ L := by
          simp only [List.length_append, List.length_singleton]
          rcases Nat.eq_zero_or_pos i with rfl | hip
          · exfalso
            apply hi
            rw [Nat.div_eq_of_lt hpow]
          · have h4 : 2 ^ L ≤ i * 2 ^ L := Nat.le_mul_of_pos_left _ hip
            omega
        rw [nodeHash_eq_none h (leaves ++ [v]) L i hge]
    · rw [if_neg hL', if_neg (by
        intro hLH
        exact hL' (le_trans hLH (heightFor_mono (by omega))))]

/-- `addLeafHash` always succeeds on a tree satisfying the invariant, hands
back the old leaf count as the new index, and preserves the invariant for
the extended leaf sequence. -/
theorem addLeafHash_inv (h : α → α → α) (leaves : List α) (v : α) (t : MerkleTree α)
    (ht : TreeInv h leaves t) :
    ∃ t', t.addLeafHash h v = some (t', leaves.length) ∧
      TreeInv h (leaves ++ [v]) t' := by
  obtain ⟨hcount, hnodes⟩ := ht
  have hinit : setNode t.nodes 0 t.leafCount v = midNodes h leaves v 0 := by
    rw [hcount, hnodes]
    funext L i
    simp only [setNode, midNodes]
    by_cases hset : L = 0 ∧ i = leaves.length
    · obtain ⟨rfl, rfl⟩ := hset
      rw [if_pos ⟨rfl, rfl⟩,
        if_pos ⟨le_refl 0, by rw [pow_zero, Nat.div_one]⟩,
        nodeHash_append_self]
    · have hc2 : ¬(L ≤ 0 ∧ i = leaves.length / 2 ^ L) := by
        intro hcc
        obtain ⟨hL0, hi⟩ := hcc
        have hL : L = 0 := Nat.le_zero.mp hL0
        subst hL
        rw [pow_zero, Nat.div_one] at hi
        exact hset ⟨rfl, hi⟩
      rw [if_neg hset, if_neg hc2]
  refine ⟨⟨midNodes h leaves v (heightFor (leaves.length + 1)), t.leafCount + 1⟩, ?_, ?_, ?_⟩
  · simp only [MerkleTree.addLeafHash]
    rw [hinit, hcount]
    have hloop := rebuildPathAux_correct h leaves v (heightFor (leaves.length + 1)) 0
      (by omega)
    rw [pow_zero, Nat.div_one] at hloop
    rw [hloop]
  · simp only [List.length_append, List.length_singleton]
    omega
  · rw [show (leaves ++ [v]).length = leaves.length + 1 by simp]
    exact midNodes_final h leaves v

theorem treeInv_empty (h : α → α → α) : TreeInv h ([] : List α) MerkleTree.empty := by
  refine ⟨rfl, ?_⟩
  funext L i
  simp only [MerkleTree.empty]
  cases L with
  | zero => simp [nodeHash, heightFor]
  | succ L => simp [heightFor]

theorem buildTreeAux_inv (h : α → α → α) :
    ∀ (more leaves : List α) (t : MerkleTree α), TreeInv h leaves t →
      ∃ t', buildTreeAux h t more = some t' ∧ TreeInv h (leaves ++ more) t' := by
  intro more
  induction more with
  | nil =>
    intro leaves t ht
    exact ⟨t, rfl, by simpa using ht⟩
  | cons v vs ih =>
    intro leaves t ht
    obtain ⟨t1, hadd, hinv1⟩ := addLeafHash_inv h leaves v t ht
    obtain ⟨t', hrest, hinv'⟩ := ih (leaves ++ [v]) t1 hinv1
    refine ⟨t', ?_, ?_⟩
    · simp [buildTreeAux, hadd, hrest]
    · simpa [List.append_assoc] using hinv'

/-- `buildTree` always succeeds and yields the invariant tree. -/
theorem buildTree_inv (h : α → α → α) (leaves : List α) :
    ∃ t, buildTree h leaves = some t ∧ TreeInv h leaves t := by
  simpa using buildTreeAux_inv h leaves [] MerkleTree.empty (treeInv_empty h)

/-- Under the invariant the root is the specified hash of the whole
sequence, and it exists as soon as the tree is non-empty. -/
theorem getRoot_inv (h : α → α → α) (leaves : List α) (t : MerkleTree α)
    (ht : TreeInv h leaves t) (hne : 0 < leaves.length) :
    ∃ r, t.getRoot = some r ∧
      nodeHash h leaves (heightFor leaves.length) 0 = some r := by
  obtain ⟨hcount, hnodes⟩ := ht
  have hr : (nodeHash h leaves (heightFor leaves.length) 0).isSome = true := by
    rw [nodeHash_isSome]
    simpa using hne
  obtain ⟨r, hr'⟩ := Option.isSome_iff_exists.mp hr
  refine ⟨r, ?_, hr'⟩
  simp only [MerkleTree.getRoot, hcount, hnodes]
  rw [if_neg (by omega), if_pos (le_refl _), hr']

-- ===========================================================================
-- Correctness of proof generation and verification
-- ===========================================================================

theorem foldSiblings_append (h : α → α → α) (acc : List (ProofSibling α))
    (s : ProofSibling α) (x : α) :
    foldSiblings h (acc ++ [s]) x =
      match s.position with
      | .left => h s.hash (foldSiblings h acc x)
      | .right => h (foldSiblings h acc x) s.hash := by
  simp [foldSiblings, List.foldl_append]

theorem generateProofAux_correct (h : α → α → α) (leaves : List α) (t : MerkleTree α)
    (ht : TreeInv h leaves t) (i : Nat) (hi : i < leaves.length) (leaf : α) :
    ∀ fuel ℓ : Nat, ℓ + fuel = heightFor leaves.length →
      ∀ (acc : List (ProofSibling α)) (prev : α),
        nodeHash h leaves ℓ (i / 2 ^ ℓ) = some prev →
        foldSiblings h acc leaf = prev →
        ∃ sibs root,
          generateProofAux t ℓ fuel (i / 2 ^ ℓ) acc = some sibs ∧
          nodeHash h leaves (heightFor leaves.length) 0 = some root ∧
          foldSiblings h sibs leaf = root := by
  obtain ⟨hcount, hnodes⟩ := ht
  intro fuel
  induction fuel with
  | zero =>
    intro ℓ hfl acc prev hprev hfold
    rw [Nat.add_zero] at hfl
    subst hfl
    have hzero : i / 2 ^ heightFor leaves.length = 0 := by
      apply Nat.div_eq_of_lt
      have := le_pow_heightFor leaves.length
      omega
    rw [hzero] at hprev
    exact ⟨acc, prev, rfl, hprev, hfold⟩
  | succ fuel ih =>
    intro ℓ hfl acc prev hprev hfold
    have hℓH : ℓ ≤ heightFor leaves.length := by omega
    have hdiv : i / 2 ^ ℓ / 2 = i / 2 ^ (ℓ + 1) := by
      rw [Nat.div_div_eq_div_mul, pow_succ]
    have hcur_le : i / 2 ^ ℓ * 2 ^ ℓ ≤ i := Nat.div_mul_le_self _ _
    have hpow : 0 < 2 ^ ℓ := Nat.pos_pow_of_pos _ (by norm_num)
    simp only [generateProofAux, hnodes]
    rcases Nat.mod_two_eq_zero_or_one (i / 2 ^ ℓ) with hpar | hpar
    · -- current index is even: the sibling is to the right
      have hm : i / 2 ^ ℓ = 2 * (i / 2 ^ ℓ / 2) := by omega
      have hxor : i / 2 ^ ℓ ^^^ 1 = i / 2 ^ ℓ + 1 := by
        have hx := two_mul_xor_one (i / 2 ^ ℓ / 2)
        rw [← hm] at hx
        omega
      rw [if_pos hℓH, hxor]
      have hparent : ∀ rv, nodeHash h leaves ℓ (i / 2 ^ ℓ + 1) = rv →
          nodeHash h leaves (ℓ + 1) (i / 2 ^ (ℓ + 1)) =
            match some prev, rv with
            | some x, some y => some (h x y)
            | some x, none => some (h x x)
            | none, _ => none := by
        intro rv hrv
        rw [← hdiv]
        have hexp : nodeHash h leaves (ℓ + 1) (i / 2 ^ ℓ / 2) =
            match nodeHash h leaves ℓ (2 * (i / 2 ^ ℓ / 2)),
              nodeHash h leaves ℓ (2 * (i / 2 ^ ℓ / 2) + 1) with
            | some x, some y => some (h x y)
            | some x, none => some (h x x)
            | none, _ => none := rfl
        rw [hexp, ← hm, hprev, hrv]
      cases hs : nodeHash h leaves ℓ (i / 2 ^ ℓ + 1) with
      | some b =>
        rw [if_pos hpar]
        dsimp only
        have hnext := ih (ℓ + 1) (by omega) (acc ++ [⟨b, Position.right⟩]) (h prev b)
          (hparent _ hs) (by rw [foldSiblings_append, hfold])
        rw [← hdiv] at hnext
        exact hnext
      | none =>
        -- no right sibling: the node's own hash is pushed with position 'right'
        rw [if_pos hℓH, hprev]
        dsimp only
        have hnext := ih (ℓ + 1) (by omega) (acc ++ [⟨prev, Position.right⟩]) (h prev prev)
          (hparent _ hs) (by rw [foldSiblings_append, hfold])
        rw [← hdiv] at hnext
        exact hnext
    · -- current index is odd: the sibling is to the left and always exists
      have hm : i / 2 ^ ℓ = 2 * (i / 2 ^ ℓ / 2) + 1 := by omega
      have hxor : i / 2 ^ ℓ ^^^ 1 = 2 * (i / 2 ^ ℓ / 2) := by
        have hx := two_mul_add_one_xor_one (i / 2 ^ ℓ / 2)
        rw [← hm] at hx
        exact hx
      have hlb : 2 * (i / 2 ^ ℓ / 2) * 2 ^ ℓ < leaves.length := by
        have h1 : 2 * (i / 2 ^ ℓ / 2) ≤ i / 2 ^ ℓ := by omega
        have h2 : 2 * (i / 2 ^ ℓ / 2) * 2 ^ ℓ ≤ i / 2 ^ ℓ * 2 ^ ℓ :=
          Nat.mul_le_mul_right _ h1
        omega
      obtain ⟨b, hb⟩ := nodeHash_eq_some h leaves ℓ _ hlb
      rw [if_pos hℓH, hxor, hb]
      have hpos : ¬ (i / 2 ^ ℓ % 2 = 0) := by omega
      rw [if_neg hpos]
      dsimp only
      have hparent : nodeHash h leaves (ℓ + 1) (i / 2 ^ (ℓ + 1)) = some (h b prev) := by
        rw [← hdiv]
        have hexp : nodeHash h leaves (ℓ + 1) (i / 2 ^ ℓ / 2) =
            match nodeHash h leaves ℓ (2 * (i / 2 ^ ℓ / 2)),
              nodeHash h leaves ℓ (2 * (i / 2 ^ ℓ / 2) + 1) with
            | some x, some y => some (h x y)
            | some x, none => some (h x x)
            | none, _ => none := rfl
        rw [hexp, hb, ← hm, hprev]
      have hnext := ih (ℓ + 1) (by omega) (acc ++ [⟨b, Position.left⟩]) (h b prev)
        hparent (by rw [foldSiblings_append, hfold])
      rw [← hdiv] at hnext
      exact hnext

theorem generateProof_correct [DecidableEq α] (h : α → α → α) (leaves : List α)
    (t : MerkleTree α) (ht : TreeInv h leaves t) (i : Nat) (hi : i < leaves.length) :
    ∃ p, t.generateProof i = some p ∧
      some p.rootHash = t.getRoot ∧
      leaves.get? i = some p.leafHash ∧
      p.leafIndex = i ∧
      verifyProof h p = true := by
  have hne : 0 < leaves.length := by omega
  obtain ⟨r, hroot, hrnode⟩ := getRoot_inv h leaves t ht hne
  obtain ⟨leaf, hleaf⟩ := Option.isSome_iff_exists.mp ((get?_isSome_iff leaves i).mpr hi)
  obtain ⟨hcount, hnodes⟩ := ht
  have hnode0 : t.nodes 0 i = some leaf := by
    simp only [hnodes]
    rw [if_pos (Nat.zero_le _)]
    simpa [nodeHash] using hleaf
  have hstart : nodeHash h leaves 0 (i / 2 ^ 0) = some leaf := by
    rw [pow_zero, Nat.div_one]
    simpa [nodeHash] using hleaf
  obtain ⟨sibs, root', haux, hnode', hfoldr⟩ :=
    generateProofAux_correct h leaves t ⟨hcount, hnodes⟩ i hi leaf
      (heightFor leaves.length) 0 (by omega) [] leaf hstart rfl
  rw [pow_zero, Nat.div_one] at haux
  have hrr : root' = r := by
    rw [hrnode] at hnode'
    exact (Option.some_injective _ hnode').symm
  subst hrr
  refine ⟨⟨leaf, i, sibs, root'⟩, ?_, ?_, ?_, rfl, ?_⟩
  · simp only [MerkleTree.generateProof, hcount]
    rw [if_pos hi, hroot, hnode0, haux]
  · rw [hroot]
  · exact hleaf
  · simp [verifyProof, hfoldr]

/-- C1: for every sequence of leaves appended to an initially empty
MerkleTree giving leafCount `n ≥ 1` (in particular every `n` in
{1, 2, 3, 4, 5, 7, 8, 16, 17}) and every leaf index `0 ≤ i < n`,
`generateProof i` returns a proof whose `rootHash` equals the tree's
current root (`getRoot`), and `MerkleTree.verifyProof` of that proof
returns `true`.  Stated for an arbitrary internal-hash function `h`. -/
theorem C1_generateProof_roundtrip [DecidableEq α] (h : α → α → α)
    (leaves : List α) (i : Nat) (hn : 1 ≤ leaves.length) (hi : i < leaves.length) :
    ∃ t p, buildTree h leaves = some t ∧
      t.generateProof i = some p ∧
      some p.rootHash = t.getRoot ∧
      verifyProof h p = true := by
  obtain ⟨t, hbuild, hinv⟩ := buildTree_inv h leaves
  obtain ⟨p, hgen, hrootEq, _, _, hver⟩ := generateProof_correct h leaves t hinv i hi
  exact ⟨t, p, hbuild, hgen, hrootEq, hver⟩

/-- Witness for C1 at a concrete input: three leaves, index 1. -/
theorem C1_generateProof_roundtrip_witness :
    1 ≤ ([5, 6, 7] : List Nat).length ∧ 1 < ([5, 6, 7] : List Nat).length ∧
    ∃ t p, buildTree (fun a b => a + 2 * b) [5, 6, 7] = some t ∧
      t.generateProof 1 = some p ∧
      some p.rootHash = t.getRoot ∧
      verifyProof (fun a b => a + 2 * b) p = true :=
  ⟨by decide, by decide,
    C1_generateProof_roundtrip (fun a b => a + 2 * b) [5, 6, 7] 1 (by decide) (by decide)⟩

/-- C10: appending a leaf (`addLeaf` or `addLeafHash`) on a tree with
leafCount `n` stores the new hash at level-0 index `n`, increments the
leaf count to `n + 1`, and leaves every previously stored level-0 leaf
hash at indices `0 .. n-1` unchanged; a leaf's hash and index are never
modified or reused by any later append. -/
theorem C10_append_frame (hashLeafFn : β → α) (h : α → α → α)
    (leaves : List α) (v : α) (data : β) :
    ∃ t, buildTree h leaves = some t ∧
      t.leafCount = leaves.length ∧
      (∀ j, t.nodes 0 j = leaves.get? j) ∧
      (∃ t', t.addLeafHash h v = some (t', leaves.length) ∧
        t'.leafCount = leaves.length + 1 ∧
        t'.nodes 0 leaves.length = some v ∧
        ∀ j, j < leaves.length → t'.nodes 0 j = t.nodes 0 j) ∧
      (∃ t'', t.addLeaf hashLeafFn h data = some (t'', hashLeafFn data, leaves.length) ∧
        t''.leafCount = leaves.length + 1 ∧
        t''.nodes 0 leaves.length = some (hashLeafFn data) ∧
        ∀ j, j < leaves.length → t''.nodes 0 j = t.nodes 0 j) ∧
      (∀ more tm, buildTree h (leaves ++ more) = some tm →
        ∀ j, j < leaves.length → tm.nodes 0 j = leaves.get? j) := by
  obtain ⟨t, hbuild, hinv⟩ := buildTree_inv h leaves
  have hlevel0 : ∀ (w : List α) (u : MerkleTree α), TreeInv h w u →
      ∀ j, u.nodes 0 j = w.get? j := by
    intro w u hu j
    obtain ⟨_, hn⟩ := hu
    simp only [hn]
    rw [if_pos (Nat.zero_le _)]
    rfl
  have ht0 := hlevel0 leaves t hinv
  refine ⟨t, hbuild, hinv.1, ht0, ?_, ?_, ?_⟩
  · obtain ⟨t', hadd, hinv'⟩ := addLeafHash_inv h leaves v t hinv
    have ht0' := hlevel0 (leaves ++ [v]) t' hinv'
    refine ⟨t', hadd, hinv'.1.trans (by simp), ?_, ?_⟩
    · rw [ht0' leaves.length]
      simp [List.get?_eq_getElem?]
    · intro j hj
      rw [ht0' j, ht0 j, List.get?_eq_getElem?, List.get?_eq_getElem?,
        List.getElem?_append_left hj]
  · obtain ⟨t'', hadd, hinv''⟩ := addLeafHash_inv h leaves (hashLeafFn data) t hinv
    have ht0'' := hlevel0 (leaves ++ [hashLeafFn data]) t'' hinv''
    refine ⟨t'', ?_, hinv''.1.trans (by simp), ?_, ?_⟩
    · simp only [MerkleTree.addLeaf]
      rw [hadd]
    · rw [ht0'' leaves.length]
      simp [List.get?_eq_getElem?]
    · intro j hj
      rw [ht0'' j, ht0 j, List.get?_eq_getElem?, List.get?_eq_getElem?,
        List.getElem?_append_left hj]
  · intro more tm hbuild' j hj
    obtain ⟨tm', hbuild'', hinvm⟩ := buildTree_inv h (leaves ++ more)
    rw [hbuild'] at hbuild''
    obtain rfl := Option.some_injective _ hbuild''
    rw [hlevel0 (leaves ++ more) tm hinvm j, List.get?_eq_getElem?,
      List.get?_eq_getElem?, List.getElem?_append_left hj]

-- ===========================================================================
-- Canonicalization (canonicalizeCommitment / sortObjectKeys in tree.ts)
-- ===========================================================================

/-- JSON-like values: the dynamic payloads (`payload`, `metadata`) that
`canonicalizeCommitment` serializes.  Objects are association lists in
insertion order. -/
inductive Jv where
  | null : Jv
  | bool : Bool → Jv
  | num : Int → Jv
  | str : String → Jv
  | arr : List Jv → Jv
  | obj : List (String × Jv) → Jv

/-- Code-point lexicographic comparison of character lists: the order
used by JavaScript's default `Array.prototype.sort` on strings. -/
def charListLe : List Char → List Char → Bool
  | [], _ => true
  | _ :: _, [] => false
  | c₁ :: r₁, c₂ :: r₂ =>
    if c₁.toNat < c₂.toNat then true
    else if c₂.toNat < c₁.toNat then false
    else charListLe r₁ r₂

/-- Code-point order on strings. -/
def strLe (a b : String) : Bool := charListLe a.data b.data

theorem charListLe_total : ∀ a b : List Char, charListLe a b = true ∨ charListLe b a = true := by
  intro a
  induction a with
  | nil => intro b; left; rfl
  | cons c₁ r₁ ih =>
    intro b
    cases b with
    | nil => right; rfl
    | cons c₂ r₂ =>
      simp only [charListLe]
      rcases Nat.lt_trichotomy c₁.toNat c₂.toNat with hlt | heq | hgt
      · left; simp [hlt]
      · rcases ih r₂ with h | h
        · left; simp [heq, h]
        · right; simp [heq, h]
      · right; simp [hgt, Nat.lt_asymm hgt]

theorem charListLe_trans : ∀ a b c : List Char, charListLe a b = true →
    charListLe b c = true → charListLe a c = true := by
  intro a
  induction a with
  | nil => intro b c _ _; rfl
  | cons c₁ r₁ ih =>
    intro b c hab hbc
    cases b with
    | nil => simp [charListLe] at hab
    | cons c₂ r₂ =>
      cases c with
      | nil => simp [charListLe] at hbc
      | cons c₃ r₃ =>
        simp only [charListLe] at hab hbc ⊢
        rcases Nat.lt_trichotomy c₁.toNat c₂.toNat with h12 | h12 | h12
        · rcases Nat.lt_trichotomy c₂.toNat c₃.toNat with h23 | h23 | h23
          · simp [show c₁.toNat < c₃.toNat by omega]
          · simp [show c₁.toNat < c₃.toNat by omega]
          · simp [h23, Nat.lt_asymm h23] at hbc
        · rcases Nat.lt_trichotomy c₂.toNat c₃.toNat with h23 | h23 | h23
          · simp [show c₁.toNat < c₃.toNat by omega]
          · have he : ¬ c₁.toNat < c₃.toNat := by omega
            have he' : ¬ c₃.toNat < c₁.toNat := by omega
            simp [h12, Nat.lt_irrefl] at hab
            simp [h23, Nat.lt_irrefl] at hbc
            simp [he, he']
            exact ih r₂ r₃ hab hbc
          · simp [h23, Nat.lt_asymm h23] at hbc
        · simp [h12, Nat.lt_asymm h12] at hab

theorem char_toNat_inj {c₁ c₂ : Char} (h : c₁.toNat = c₂.toNat) : c₁ = c₂ :=
  Char.ext (UInt32.ext h)

theorem charListLe_antisymm : ∀ a b : List Char, charListLe a b = true →
    charListLe b a = true → a = b := by
  intro a
  induction a with
  | nil =>
    intro b _ hba
    cases b with
    | nil => rfl
    | cons c₂ r₂ => simp [charListLe] at hba
  | cons c₁ r₁ ih =>
    intro b hab hba
    cases b with
    | nil => simp [charListLe] at hab
    | cons c₂ r₂ =>
      simp only [charListLe] at hab hba
      rcases Nat.lt_trichotomy c₁.toNat c₂.toNat with h12 | h12 | h12
      · simp [h12, Nat.lt_asymm h12] at hba
      · simp [h12, Nat.lt_irrefl] at hab hba
        rw [char_toNat_inj h12, ih r₂ hab hba]
      · simp [h12, Nat.lt_asymm h12] at hab

/-- Key order used by `Object.keys(obj).sort()`: compare the keys in
code-point order. -/
def entryLe (p q : String × Jv) : Prop := strLe p.1 q.1 = true

/-- Strict key order, used to identify sorted lists with distinct keys. -/
def entryLt (p q : String × Jv) : Prop := entryLe p q ∧ p.1 ≠ q.1

instance : DecidableRel entryLe :=
  fun p q => inferInstanceAs (Decidable (strLe p.1 q.1 = true))
instance : DecidableRel entryLt :=
  fun p q => inferInstanceAs (Decidable (_ ∧ _))
instance : IsTotal (String × Jv) entryLe := ⟨fun p q => charListLe_total p.1.data q.1.data⟩
instance : IsTrans (String × Jv) entryLe :=
  ⟨fun _ _ _ h1 h2 => charListLe_trans _ _ _ h1 h2⟩
instance : IsAntisymm (String × Jv) entryLt :=
  ⟨fun p q hab hba =>
    absurd (String.ext (charListLe_antisymm _ _ hab.1 hba.1)) hab.2⟩

/-! `sortObjectKeys` from tree.ts: primitives unchanged, arrays mapped
elementwise, objects rebuilt with keys in sorted order and values
recursively sorted.  (The source sorts the keys first and then recurses
into each value; recursing first and then sorting by key builds the same
association list, since the comparison only reads keys.) -/
mutual
def sortObjectKeys : Jv → Jv
  | .null => .null
  | .bool b => .bool b
  | .num n => .num n
  | .str s => .str s
  | .arr xs => .arr (sortValuesArr xs)
  | .obj l => .obj (List.insertionSort entryLe (sortValuesObj l))
def sortValuesArr : List Jv → List Jv
  | [] => []
  | x :: xs => sortObjectKeys x :: sortValuesArr xs
def sortValuesObj : List (String × Jv) → List (String × Jv)
  | [] => []
  | (k, v) :: l => (k, sortObjectKeys v) :: sortValuesObj l
end

/-- Hex digit for escape sequences. -/
def hexDigitChar (n : Nat) : Char :=
  if n < 10 then Char.ofNat (48 + n) else Char.ofNat (87 + n)

/-- The string-escape discipline of `JSON.stringify`. -/
def escapeString (s : String) : String :=
  s.data.foldl
    (fun acc c =>
      acc ++
        if c = '"' then "\\\""
        else if c = '\\' then "\\\\"
        else if c = '\n' then "\\n"
        else if c = '\t' then "\\t"
        else if c = '\r' then "\\r"
        else if c.toNat < 32 then
          "\\u00" ++ String.mk [hexDigitChar (c.toNat / 16), hexDigitChar (c.toNat % 16)]
        else String.singleton c)
    ""

/-! `JSON.stringify` on `Jv` values: objects render their entries in list
order. -/
mutual
def Jv.stringify : Jv → String
  | .null => "null"
  | .bool true => "true"
  | .bool false => "false"
  | .num n => toString n
  | .str s => "\"" ++ escapeString s ++ "\""
  | .arr xs => "[" ++ String.intercalate "," (stringifyArr xs) ++ "]"
  | .obj l => "\x7b" ++ String.intercalate "," (stringifyObj l) ++ "\x7d"
def stringifyArr : List Jv → List String
  | [] => []
  | x :: xs => Jv.stringify x :: stringifyArr xs
def stringifyObj : List (String × Jv) → List String
  | [] => []
  | (k, v) :: l =>
    ("\"" ++ escapeString k ++ "\":" ++ Jv.stringify v) :: stringifyObj l
end

/-- The commitment fields consumed by `canonicalizeCommitment`. -/
structure CommitmentRec where
  id : String
  type : String
  payload : Jv
  timestamp : Int
  signature : String

/-- The canonical object: top-level keys in the fixed order
`id, payload, signature, timestamp, type`, payload key-sorted. -/
def canonicalJv (c : CommitmentRec) : Jv :=
  .obj [("id", .str c.id), ("payload", sortObjectKeys c.payload),
        ("signature", .str c.signature), ("timestamp", .num c.timestamp),
        ("type", .str c.type)]

/-- `canonicalizeCommitment` from tree.ts: `JSON.stringify` of the
canonical object. -/
def canonicalizeCommitment (c : CommitmentRec) : String :=
  (canonicalJv c).stringify

/-- Top-level key list of a value (for stating the fixed key order). -/
def topKeys : Jv → List String
  | .obj l => l.map Prod.fst
  | _ => []

/-! Values equal up to permutation of object keys, at any nesting depth.
`obj` relates `l₁` to `l₂` when some reordering `middle` of `l₁` matches
`l₂` entrywise with equal keys and equivalent values. -/
mutual
inductive JvEquiv : Jv → Jv → Prop where
  | null : JvEquiv .null .null
  | bool (b : Bool) : JvEquiv (.bool b) (.bool b)
  | num (n : Int) : JvEquiv (.num n) (.num n)
  | str (s : String) : JvEquiv (.str s) (.str s)
  | arr {xs ys : List Jv} : JvEquivList xs ys → JvEquiv (.arr xs) (.arr ys)
  | obj {l₁ l₂ : List (String × Jv)} (middle : List (String × Jv)) :
      l₁.Perm middle → JvEquivEntries middle l₂ → JvEquiv (.obj l₁) (.obj l₂)
inductive JvEquivList : List Jv → List Jv → Prop where
  | nil : JvEquivList [] []
  | cons {x y : Jv} {xs ys : List Jv} :
      JvEquiv x y → JvEquivList xs ys → JvEquivList (x :: xs) (y :: ys)
inductive JvEquivEntries : List (String × Jv) → List (String × Jv) → Prop where
  | nil : JvEquivEntries [] []
  | cons {p q : String × Jv} {l₁ l₂ : List (String × Jv)} :
      p.1 = q.1 → JvEquiv p.2 q.2 → JvEquivEntries l₁ l₂ →
      JvEquivEntries (p :: l₁) (q :: l₂)
end

/-! Well-formedness: every object, at any depth, has distinct keys (a JS
object cannot hold duplicate keys). -/
mutual
def keysOk : Jv → Bool
  | .null => true
  | .bool _ => true
  | .num _ => true
  | .str _ => true
  | .arr xs => keysOkArr xs
  | .obj l => decide ((l.map Prod.fst).Nodup) && keysOkEntries l
def keysOkArr : List Jv → Bool
  | [] => true
  | x :: xs => keysOk x && keysOkArr xs
def keysOkEntries : List (String × Jv) → Bool
  | [] => true
  | p :: l => keysOk p.2 && keysOkEntries l
end

/-! Every object, at any depth, lists its keys in (code-point) sorted
order. -/
mutual
def keysSorted : Jv → Bool
  | .null => true
  | .bool _ => true
  | .num _ => true
  | .str _ => true
  | .arr xs => keysSortedArr xs
  | .obj l =>
    decide (List.Sorted (fun a b : String => strLe a b = true) (l.map Prod.fst)) &&
      keysSortedEntries l
def keysSortedArr : List Jv → Bool
  | [] => true
  | x :: xs => keysSorted x && keysSortedArr xs
def keysSortedEntries : List (String × Jv) → Bool
  | [] => true
  | p :: l => keysSorted p.2 && keysSortedEntries l
end

-- ===========================================================================
-- Canonicalization lemmas
-- ===========================================================================

theorem sortValuesObj_eq_map (l : List (String × Jv)) :
    sortValuesObj l = l.map (fun p => (p.1, sortObjectKeys p.2)) := by
  induction l with
  | nil => rfl
  | cons p l ih => obtain ⟨k, v⟩ := p; simp [sortValuesObj, ih]

theorem keysOkEntries_iff (l : List (String × Jv)) :
    keysOkEntries l = true ↔ ∀ p ∈ l, keysOk p.2 = true := by
  induction l with
  | nil => simp [keysOkEntries]
  | cons p l ih => simp [keysOkEntries, ih]

theorem keysSortedEntries_iff (l : List (String × Jv)) :
    keysSortedEntries l = true ↔ ∀ p ∈ l, keysSorted p.2 = true := by
  induction l with
  | nil => simp [keysSortedEntries]
  | cons p l ih => simp [keysSortedEntries, ih]

/-- Two permuted association lists with distinct keys sort to the same
list: sortedness in the strict key order forces the arrangement. -/
theorem insertionSort_eq_of_perm (l₁ l₂ : List (String × Jv))
    (hperm : l₁.Perm l₂) (hnd : (l₁.map Prod.fst).Nodup) :
    List.insertionSort entryLe l₁ = List.insertionSort entryLe l₂ := by
  have hp1 := List.perm_insertionSort entryLe l₁
  have hp2 := List.perm_insertionSort entryLe l₂
  have hs1 := List.sorted_insertionSort entryLe l₁
  have hs2 := List.sorted_insertionSort entryLe l₂
  have hperm' : (List.insertionSort entryLe l₁).Perm (List.insertionSort entryLe l₂) :=
    hp1.trans (hperm.trans hp2.symm)
  have hstrict : ∀ l : List (String × Jv), List.Sorted entryLe l →
      (l.map Prod.fst).Nodup → List.Sorted entryLt l := by
    intro l hsle hln
    have hpn : l.Pairwise (fun p q : String × Jv => p.1 ≠ q.1) :=
      (List.pairwise_map).mp hln
    exact (hsle.and hpn).imp fun hpq => ⟨hpq.1, hpq.2⟩
  have hnd1 : ((List.insertionSort entryLe l₁).map Prod.fst).Nodup :=
    ((hp1.map Prod.fst).nodup_iff).mpr hnd
  have hnd2 : ((List.insertionSort entryLe l₂).map Prod.fst).Nodup :=
    ((hperm'.map Prod.fst).nodup_iff).mp hnd1
  exact List.eq_of_perm_of_sorted hperm' (hstrict _ hs1 hnd1) (hstrict _ hs2 hnd2)

theorem sortValuesArr_eq_of_equiv (n : Nat)
    (ih : ∀ v₁ v₂ : Jv, sizeOf v₁ ≤ n → JvEquiv v₁ v₂ → keysOk v₁ = true →
      sortObjectKeys v₁ = sortObjectKeys v₂) :
    ∀ xs ys : List Jv, JvEquivList xs ys → sizeOf xs ≤ n → keysOkArr xs = true →
      sortValuesArr xs = sortValuesArr ys := by
  intro xs
  induction xs with
  | nil =>
    intro ys he _ _
    cases he
    rfl
  | cons x xs' ihxs =>
    intro ys he hs hk
    cases he with
    | cons hxy hrest =>
      rename_i y ys'
      have hk' : keysOk x = true ∧ keysOkArr xs' = true := by
        simpa [keysOkArr, Bool.and_eq_true] using hk
      simp only [sortValuesArr]
      rw [ih x y (by simp at hs; omega) hxy hk'.1,
        ihxs ys' hrest (by simp at hs; omega) hk'.2]

theorem sortValuesObj_eq_of_equiv (n : Nat)
    (ih : ∀ v₁ v₂ : Jv, sizeOf v₁ ≤ n → JvEquiv v₁ v₂ → keysOk v₁ = true →
      sortObjectKeys v₁ = sortObjectKeys v₂) :
    ∀ l₁ l₂ : List (String × Jv), JvEquivEntries l₁ l₂ → sizeOf l₁ ≤ n →
      keysOkEntries l₁ = true → sortValuesObj l₁ = sortValuesObj l₂ := by
  intro l₁
  induction l₁ with
  | nil =>
    intro l₂ he _ _
    cases he
    rfl
  | cons p l ihl =>
    intro l₂ he hs hk
    cases he with
    | cons hkey hval hrest =>
      rename_i q l₂'
      have hk' : keysOk p.2 = true ∧ keysOkEntries l = true := by
        simpa [keysOkEntries, Bool.and_eq_true] using hk
      obtain ⟨k, v⟩ := p
      obtain ⟨k', v'⟩ := q
      have hkk : k = k' := hkey
      subst hkk
      simp only [sortValuesObj]
      rw [ih v v' (by simp at hs; omega) hval hk'.1,
        ihl l₂' hrest (by simp at hs; omega) hk'.2]

/-- Key-sorting maps key-permutation-equivalent well-formed values to
identical values. -/
theorem sortObjectKeys_eq_of_equiv_aux :
    ∀ n : Nat, ∀ v₁ v₂ : Jv, sizeOf v₁ ≤ n → JvEquiv v₁ v₂ → keysOk v₁ = true →
      sortObjectKeys v₁ = sortObjectKeys v₂ := by
  intro n
  induction n with
  | zero =>
    intro v₁ v₂ hs _ _
    exfalso
    cases v₁ <;> simp at hs
  | succ n ih =>
    intro v₁ v₂ hs he hk
    cases v₁ with
    | null => cases he; rfl
    | bool b => cases he; rfl
    | num m => cases he; rfl
    | str s => cases he; rfl
    | arr xs =>
      cases he with
      | arr hlist =>
        rename_i ys
        simp only [sortObjectKeys]
        rw [sortValuesArr_eq_of_equiv n ih xs ys hlist (by simp at hs; omega)
          (by simpa [keysOk] using hk)]
    | obj l₁ =>
      cases he with
      | obj middle hperm hentries =>
        rename_i l₂
        have hk' : (l₁.map Prod.fst).Nodup ∧ keysOkEntries l₁ = true := by
          simpa [keysOk, Bool.and_eq_true, decide_eq_true_iff] using hk
        have hsl : sizeOf l₁ ≤ n := by simp at hs; omega
        have hsm : sizeOf middle ≤ n := by
          rw [← hperm.sizeOf_eq_sizeOf]; exact hsl
        have hkm : keysOkEntries middle = true := by
          rw [keysOkEntries_iff]
          intro p hp
          exact (keysOkEntries_iff l₁).mp hk'.2 p (hperm.mem_iff.mpr hp)
        have hmid : sortValuesObj middle = sortValuesObj l₂ :=
          sortValuesObj_eq_of_equiv n ih middle l₂ hentries hsm hkm
        have hperm2 : (sortValuesObj l₁).Perm (sortValuesObj l₂) := by
          rw [← hmid, sortValuesObj_eq_map, sortValuesObj_eq_map]
          exact hperm.map _
        have hnd2 : ((sortValuesObj l₁).map Prod.fst).Nodup := by
          rw [sortValuesObj_eq_map, List.map_map]
          exact hk'.1
        simp only [sortObjectKeys]
        rw [insertionSort_eq_of_perm (sortValuesObj l₁) (sortValuesObj l₂) hperm2 hnd2]

theorem sortObjectKeys_eq_of_equiv (v₁ v₂ : Jv) (he : JvEquiv v₁ v₂)
    (hk : keysOk v₁ = true) : sortObjectKeys v₁ = sortObjectKeys v₂ :=
  sortObjectKeys_eq_of_equiv_aux (sizeOf v₁) v₁ v₂ (le_refl _) he hk

theorem keysSortedArr_sortValuesArr (n : Nat)
    (ih : ∀ v : Jv, sizeOf v ≤ n → keysSorted (sortObjectKeys v) = true) :
    ∀ xs : List Jv, sizeOf xs ≤ n → keysSortedArr (sortValuesArr xs) = true := by
  intro xs
  induction xs with
  | nil => intro _; rfl
  | cons x xs' ihxs =>
    intro hs
    simp only [sortValuesArr, keysSortedArr, Bool.and_eq_true]
    exact ⟨ih x (by simp at hs; omega), ihxs (by simp at hs; omega)⟩

/-- Every value sorted by `sortObjectKeys` lists all its object keys, at
every depth, in sorted order. -/
theorem keysSorted_sortObjectKeys_aux :
    ∀ n : Nat, ∀ v : Jv, sizeOf v ≤ n → keysSorted (sortObjectKeys v) = true := by
  intro n
  induction n with
  | zero =>
    intro v hs
    exfalso
    cases v <;> simp at hs
  | succ n ih =>
    intro v hs
    cases v with
    | null => rfl
    | bool b => rfl
    | num m => rfl
    | str s => rfl
    | arr xs =>
      simp only [sortObjectKeys, keysSorted]
      exact keysSortedArr_sortValuesArr n ih xs (by simp at hs; omega)
    | obj l =>
      simp only [sortObjectKeys, keysSorted, Bool.and_eq_true]
      constructor
      · rw [decide_eq_true_iff]
        have hsorted := List.sorted_insertionSort entryLe (sortValuesObj l)
        exact (List.pairwise_map).mpr hsorted
      · rw [keysSortedEntries_iff]
        intro p hp
        have hp' : p ∈ sortValuesObj l :=
          (List.perm_insertionSort entryLe (sortValuesObj l)).subset hp
        rw [sortValuesObj_eq_map] at hp'
        obtain ⟨⟨k, v0⟩, hmem, hpe⟩ := List.mem_map.mp hp'
        have hsz := List.sizeOf_lt_of_mem hmem
        rw [← hpe]
        show keysSorted (sortObjectKeys v0) = true
        apply ih
        simp at hs hsz
        omega

theorem keysSorted_sortObjectKeys (v : Jv) :
    keysSorted (sortObjectKeys v) = true :=
  keysSorted_sortObjectKeys_aux (sizeOf v) v (le_refl _)

theorem jvEquivList_refl (n : Nat) (ih : ∀ v : Jv, sizeOf v ≤ n → JvEquiv v v) :
    ∀ xs : List Jv, sizeOf xs ≤ n → JvEquivList xs xs := by
  intro xs
  induction xs with
  | nil => intro _; exact .nil
  | cons x xs' ihxs =>
    intro hs
    exact .cons (ih x (by simp at hs; omega)) (ihxs (by simp at hs; omega))

theorem jvEquivEntries_refl (n : Nat) (ih : ∀ v : Jv, sizeOf v ≤ n → JvEquiv v v) :
    ∀ l : List (String × Jv), sizeOf l ≤ n → JvEquivEntries l l := by
  intro l
  induction l with
  | nil => intro _; exact .nil
  | cons p l' ihl =>
    intro hs
    exact .cons rfl (ih p.2 (by obtain ⟨k, v⟩ := p; simp at hs ⊢; omega))
      (ihl (by simp at hs; omega))

theorem jvEquiv_refl_aux : ∀ n : Nat, ∀ v : Jv, sizeOf v ≤ n → JvEquiv v v := by
  intro n
  induction n with
  | zero =>
    intro v hs
    exfalso
    cases v <;> simp at hs
  | succ n ih =>
    intro v hs
    cases v with
    | null => exact .null
    | bool b => exact .bool b
    | num m => exact .num m
    | str s => exact .str s
    | arr xs => exact .arr (jvEquivList_refl n ih xs (by simp at hs; omega))
    | obj l =>
      exact .obj l (List.Perm.refl l) (jvEquivEntries_refl n ih l (by simp at hs; omega))

theorem jvEquiv_refl (v : Jv) : JvEquiv v v :=
  jvEquiv_refl_aux (sizeOf v) v (le_refl _)

/-- Example values for the C8 witness: the payload keys and the nested
metadata keys are permuted between the two commitments. -/
def exMeta1 : Jv := .obj [("alpha", .num 1), ("beta", .num 2)]

def exMeta2 : Jv := .obj [("beta", .num 2), ("alpha", .num 1)]

def exPayload1 : Jv :=
  .obj [("content", .str "Review PR 42"), ("subject", .str "code-review"),
        ("metadata", exMeta1)]

def exPayload2 : Jv :=
  .obj [("subject", .str "code-review"), ("content", .str "Review PR 42"),
        ("metadata", exMeta2)]

theorem exPayload_equiv : JvEquiv exPayload1 exPayload2 := by
  refine JvEquiv.obj
    [("subject", .str "code-review"), ("content", .str "Review PR 42"),
     ("metadata", exMeta1)] (List.Perm.swap _ _ _) ?_
  refine JvEquivEntries.cons rfl (jvEquiv_refl _) ?_
  refine JvEquivEntries.cons rfl (jvEquiv_refl _) ?_
  refine JvEquivEntries.cons rfl ?_ JvEquivEntries.nil
  refine JvEquiv.obj [("beta", .num 2), ("alpha", .num 1)] (List.Perm.swap _ _ _) ?_
  exact JvEquivEntries.cons rfl (jvEquiv_refl _)
    (JvEquivEntries.cons rfl (jvEquiv_refl _) JvEquivEntries.nil)

def exCommitment1 : CommitmentRec :=
  ⟨"commit_ab12", "agreement", exPayload1, 1700000000000, "sig00"⟩

def exCommitment2 : CommitmentRec :=
  ⟨"commit_ab12", "agreement", exPayload2, 1700000000000, "sig00"⟩

/-- A commitment row as `rowToCommitment` returns it: `leafHash` is
`none` when the column holds the empty string, `treeIndex` is `none`
when the column holds `-1`. -/
structure StoredCommitment where
  id : String
  type : String
  payload : Jv
  timestamp : Int
  signature : String
  leafHash : Option String
  treeIndex : Option Nat

/-- The `tree_state` rows (`root_hash`, `leaf_count`,
`last_anchor_index`); `lastAnchorIndex` starts at `-1`. -/
structure TreeStateRec where
  rootHash : Option String
  leafCount : Nat
  lastAnchorIndex : Int
deriving DecidableEq

/-- An anchor row. -/
structure Anchor where
  txid : String
  blockHeight : Option Nat
  timestamp : Int
  rootHash : String
  commitmentCount : Nat
  anchorIndex : Nat
  previousAnchor : Option String
deriving DecidableEq

/-- The SQLite database contents relevant to the claims. -/
structure DbState where
  commitments : List StoredCommitment
  treeNodes : NodeMap String
  treeState : TreeStateRec
  anchors : List Anchor

/-- `ORDER BY tree_index ASC` key: the raw column value (`-1` when the
tree index is unset). -/
def ciKey (c : StoredCommitment) : Int :=
  match c.treeIndex with
  | some i => (i : Int)
  | none => -1

def commitmentLe (a b : StoredCommitment) : Prop := ciKey a ≤ ciKey b

instance : DecidableRel commitmentLe :=
  fun a b => inferInstanceAs (Decidable (ciKey a ≤ ciKey b))
instance : IsTotal StoredCommitment commitmentLe := ⟨fun a b => le_total (ciKey a) (ciKey b)⟩
instance : IsTrans StoredCommitment commitmentLe := ⟨fun _ _ _ h1 h2 => le_trans h1 h2⟩

def anchorLe (a b : Anchor) : Prop := a.anchorIndex ≤ b.anchorIndex

instance : DecidableRel anchorLe :=
  fun a b => inferInstanceAs (Decidable (a.anchorIndex ≤ b.anchorIndex))
instance : IsTotal Anchor anchorLe := ⟨fun a b => le_total a.anchorIndex b.anchorIndex⟩
instance : IsTrans Anchor anchorLe := ⟨fun _ _ _ h1 h2 => le_trans h1 h2⟩

/-- `getAllCommitments`: all rows ordered by `tree_index` ascending. -/
def getAllCommitments (db : DbState) : List StoredCommitment :=
  List.insertionSort commitmentLe db.commitments

/-- `getCommitment(id)`: the row with the given primary key. -/
def getCommitment (db : DbState) (id : String) : Option StoredCommitment :=
  db.commitments.find? (fun c => decide (c.id = id))

/-- `getCommitmentCount()`: `COUNT(*)`. -/
def getCommitmentCount (db : DbState) : Nat := db.commitments.length

/-- `getAllAnchors`: all anchors ordered by `anchor_index` ascending. -/
def getAllAnchors (db : DbState) : List Anchor :=
  List.insertionSort anchorLe db.anchors

/-- `getLatestAnchor`: `ORDER BY anchor_index DESC LIMIT 1`. -/
def getLatestAnchor (db : DbState) : Option Anchor :=
  (getAllAnchors db).getLast?

/-- `getAnchorByTxid`. -/
def getAnchorByTxid (db : DbState) (txid : String) : Option Anchor :=
  db.anchors.find? (fun a => decide (a.txid = txid))

/-- One SQL write statement, as issued by the store layer. -/
inductive DbWrite where
  | insertCommitment (c : StoredCommitment)
  | saveTreeState (st : TreeStateRec)
  | saveTreeNodes (ns : NodeMap String)
  | insertAnchor (a : Anchor)

/-- Effect of one write.  `saveTreeNodes` is `INSERT OR REPLACE` keyed on
`(level, idx)`: entries present in the saved map replace the stored ones,
other stored entries remain. -/
def applyWrite (db : DbState) : DbWrite → DbState
  | .insertCommitment c => { db with commitments := db.commitments ++ [c] }
  | .saveTreeState st => { db with treeState := st }
  | .saveTreeNodes ns =>
    { db with treeNodes := fun L i => ((ns L i).rec (db.treeNodes L i) fun v => some v) }
  | .insertAnchor a => { db with anchors := db.anchors ++ [a] }

/-- One SQLite transaction: its writes apply atomically.  A crash can
only fall between transactions, never inside one. -/
def applyGroup (db : DbState) (g : List DbWrite) : DbState := g.foldl applyWrite db

/-- A store operation's write trace: a list of transactions, applied in
order.  After a crash, some prefix of the groups has been applied. -/
def applyGroups (db : DbState) (gs : List (List DbWrite)) : DbState :=
  gs.foldl applyGroup db

-- ===========================================================================
-- AnchorStore operations (src/store/anchor-store.ts)
-- ===========================================================================

/-- In-memory store state: the database plus the live Merkle tree. -/
structure StoreState where
  db : DbState
  tree : MerkleTree String

/-- The leaf hashes replayed by `open`: commitments in `treeIndex` order,
skipping rows whose `leafHash` is unset (the `if (commitment.leafHash)`
truthiness test). -/
def replayedLeafHashes (db : DbState) : List String :=
  (getAllCommitments db).filterMap (fun c => c.leafHash)

/-- `AnchorStore.open`: rebuild the tree from the stored commitments'
leaf hashes and return the store.  No comparison against the persisted
`tree_state` root is performed anywhere in `open`. -/
def openStore (h : String → String → String) (db : DbState) : Option StoreState :=
  match buildTree h (replayedLeafHashes db) with
  | some tree => some ⟨db, tree⟩
  | none => none

/-- `MerkleTree.getState()`: note the constant `lastAnchorIndex = -1`
("Managed by store"). -/
def treeGetState (t : MerkleTree String) : TreeStateRec :=
  ⟨t.getRoot, t.leafCount, -1⟩

/-- `AnchorStore.commit`: sign the canonical unsigned image, append the
leaf, persist the row, the tree state and all tree nodes in ONE
transaction.  The generated id and `Date.now()` timestamp enter as
arguments; `signFn` stands for `sign(·, privateKey)`; `hashLeafFn` for
`hashLeaf`; `h` for `hashInternal`.  Returns the new state, the stored
commitment, and the write trace. -/
def commitOp (hashLeafFn : String → String) (h : String → String → String)
    (signFn : String → String) (s : StoreState)
    (ctype : String) (payload : Jv) (id : String) (timestamp : Int) :
    Option (StoreState × StoredCommitment × List (List DbWrite)) :=
  let unsignedCanonical := canonicalizeCommitment ⟨id, ctype, payload, timestamp, ""⟩
  let signature := signFn unsignedCanonical
  let canonicalFull := canonicalizeCommitment ⟨id, ctype, payload, timestamp, signature⟩
  match s.tree.addLeaf hashLeafFn h canonicalFull with
  | none => none
  | some (tree', hash, index) =>
    let c : StoredCommitment :=
      ⟨id, ctype, payload, timestamp, signature, some hash, some index⟩
    let gs : List (List DbWrite) :=
      [[.insertCommitment c, .saveTreeState (treeGetState tree'),
        .saveTreeNodes tree'.nodes]]
    some (⟨applyGroups s.db gs, tree'⟩, c, gs)

/-- The anchor reference carried inside a `CommitmentProof`. -/
structure AnchorRef where
  txid : String
  blockHeight : Option Nat
  timestamp : Int
deriving DecidableEq

/-- A full commitment proof (types.ts `CommitmentProof`). -/
structure CommitmentProof where
  commitment : StoredCommitment
  merkleProof : MerkleProof String
  anchor : AnchorRef

/-- `AnchorStore.prove`: look the commitment up, generate a Merkle proof
against the CURRENT tree, bind the first anchor (in `anchorIndex` order)
whose `commitmentCount` exceeds the commitment's tree index. -/
def proveOp (s : StoreState) (commitmentId : String) : Option CommitmentProof :=
  match getCommitment s.db commitmentId with
  | none => none
  | some c =>
    match c.treeIndex with
    | none => none
    | some i =>
      match s.tree.generateProof i with
      | none => none
      | some mp =>
        match (getAllAnchors s.db).find? (fun a => decide (i < a.commitmentCount)) with
        | none => none
        | some a => some ⟨c, mp, ⟨a.txid, a.blockHeight, a.timestamp⟩⟩

/-- The five fields of a stored commitment that `canonicalizeCommitment`
reads. -/
def commitmentRecOf (c : StoredCommitment) : CommitmentRec :=
  ⟨c.id, c.type, c.payload, c.timestamp, c.signature⟩

/-- `AnchorStore.verifyInclusion`: check the Merkle fold against the
proof's own `rootHash` field and the leaf hash against the embedded
commitment.  The anchor reference is not consulted (the source leaves
on-chain anchor verification as a TODO). -/
def verifyInclusion (hashLeafFn : String → String) (h : String → String → String)
    (p : CommitmentProof) : Bool :=
  if verifyProof h p.merkleProof then
    decide (hashLeafFn (canonicalizeCommitment (commitmentRecOf p.commitment)) =
      p.merkleProof.leafHash)
  else false

/-- `AnchorStore.verify`: inclusion plus a signature check over the
unsigned canonical image; `sigVerifyFn` stands for
`verify(message, signature, publicKey)`. -/
def verifyOp (hashLeafFn : String → String) (h : String → String → String)
    (sigVerifyFn : String → String → String → Bool)
    (p : CommitmentProof) (publicKeyHex : String) : Bool :=
  if verifyInclusion hashLeafFn h p then
    sigVerifyFn
      (canonicalizeCommitment { commitmentRecOf p.commitment with signature := "" })
      p.commitment.signature publicKeyHex
  else false

/-- `AnchorStore.recordAnchor`: read the CURRENT tree state, compute the
next anchor index and the previous anchor's txid, insert the anchor row,
then (in a separate write) advance `lastAnchorIndex`.  On an empty tree
the non-null assertion `state.rootHash!` feeds `null` into the NOT NULL
`root_hash` column and the insert fails, modelled by `none`. -/
def recordAnchorOp (s : StoreState) (txid : String) (timestamp : Int) :
    Option (StoreState × Anchor × List (List DbWrite)) :=
  match s.tree.getRoot with
  | none => none
  | some root =>
    let latestAnchor := getLatestAnchor s.db
    let anchor : Anchor :=
      { txid := txid
        timestamp := timestamp
        rootHash := root
        commitmentCount := s.tree.leafCount
        anchorIndex :=
          match latestAnchor with
          | some a => a.anchorIndex + 1
          | none => 0
        previousAnchor := latestAnchor.map (fun a => a.txid)
        blockHeight := none }
    let treeState := s.db.treeState
    let treeState' := { treeState with lastAnchorIndex := (anchor.anchorIndex : Int) }
    let gs : List (List DbWrite) := [[.insertAnchor anchor], [.saveTreeState treeState']]
    some (⟨applyGroups s.db gs, s.tree⟩, anchor, gs)

-- ===========================================================================
-- Anchor payload (AnchorStore.buildAnchorPayload)
-- ===========================================================================

/-- One hex digit (noble's `hexToBytes` accepts both cases). -/
def hexDigitVal (c : Char) : Option Nat :=
  if '0' ≤ c ∧ c ≤ '9' then some (c.toNat - 48)
  else if 'a' ≤ c ∧ c ≤ 'f' then some (c.toNat - 87)
  else if 'A' ≤ c ∧ c ≤ 'F' then some (c.toNat - 55)
  else none

/-- `hexToBytes` from @noble/hashes: two hex chars per byte; throws
(`none`) on an odd length or a non-hex character. -/
def hexToBytesAux : List Char → Option (List Nat)
  | [] => some []
  | [_] => none
  | c1 :: c2 :: rest =>
    match hexDigitVal c1, hexDigitVal c2, hexToBytesAux rest with
    | some h1, some h2, some bs => some ((16 * h1 + h2) :: bs)
    | _, _, _ => none

def hexToBytes (sx : String) : Option (List Nat) := hexToBytesAux sx.data

/-- `DataView.setUint32(0, n, false)`: big-endian, truncating to 32
bits. -/
def uint32be (n : Nat) : List Nat :=
  [n / 2 ^ 24 % 256, n / 2 ^ 16 % 256, n / 2 ^ 8 % 256, n % 256]

/-- ASCII bytes of `BSV-ANCHOR`. -/
def protocolBytes : List Nat := "BSV-ANCHOR".data.map Char.toNat

/-- `buildAnchorPayload`: protocol tag, version byte `0x01`, raw root,
big-endian commitment count (`this.count()`, i.e. the row count), and
the previous anchor's txid bytes or 32 zero bytes. -/
def buildAnchorPayloadOp (s : StoreState) : Option (List Nat) :=
  match s.tree.getRoot with
  | none => none
  | some root =>
    let commitmentCount := getCommitmentCount s.db
    match hexToBytes root with
    | none => none
    | some rootBytes =>
      match getLatestAnchor s.db with
      | some a =>
        match hexToBytes a.txid with
        | none => none
        | some prevBytes =>
          some (protocolBytes ++ [1] ++ rootBytes ++ uint32be commitmentCount ++ prevBytes)
      | none =>
        some (protocolBytes ++ [1] ++ rootBytes ++ uint32be commitmentCount ++
          List.replicate 32 0)

-- ===========================================================================
-- Concrete scenario used by the store counterexamples and witnesses
-- ===========================================================================

/-- Hex encoding of a string (two lowercase hex digits per character,
low byte). -/
def strToHexAux : List Char → List Char
  | [] => []
  | c :: cs =>
    hexDigitChar (c.toNat / 16 % 16) :: hexDigitChar (c.toNat % 16) :: strToHexAux cs

def strToHex (s : String) : String := String.mk (strToHexAux s.data)

/-- Concrete stand-ins for the hash/sign primitives.  They produce
hex-looking strings (so `hexToBytes` accepts them) and keep distinct
trees visibly distinct: `00`-prefixed hex of the data for leaves,
`01`-prefixed concatenation for internal nodes, mirroring the domain
separation of the real `hashLeaf` / `hashInternal`. -/
def exH : String → String → String := fun a b => "01" ++ a ++ b

def exHL : String → String := fun x => "00" ++ strToHex x

def exSign : String → String := fun _ => "cafe"

def emptyDb : DbState := ⟨[], fun _ _ => none, ⟨none, 0, -1⟩, []⟩

def exStore0 : StoreState := ⟨emptyDb, MerkleTree.empty⟩

def exPayloadA : Jv := .obj [("content", .str "A"), ("subject", .str "s")]

def exPayloadB : Jv := .obj [("content", .str "B"), ("subject", .str "s")]

def noCommitment : StoredCommitment := ⟨"", "", .null, 0, "", none, none⟩

def noAnchor : Anchor := ⟨"", none, 0, "", 0, 0, none⟩

/-- First commit. -/
def exRes1 : Option (StoreState × StoredCommitment × List (List DbWrite)) :=
  commitOp exHL exH exSign exStore0 "agreement" exPayloadA "commit_0" 100

def exStore1 : StoreState := (exRes1.map (fun r => r.1)).getD exStore0

def exC1c : StoredCommitment := (exRes1.map (fun r => r.2.1)).getD noCommitment

def exC1gs : List (List DbWrite) := (exRes1.map (fun r => r.2.2)).getD []

/-- First anchor, recorded after the first commit. -/
def exRes2 : Option (StoreState × Anchor × List (List DbWrite)) :=
  recordAnchorOp exStore1 "1111" 200

def exStore2 : StoreState := (exRes2.map (fun r => r.1)).getD exStore1

def exA0 : Anchor := (exRes2.map (fun r => r.2.1)).getD noAnchor

def exA0gs : List (List DbWrite) := (exRes2.map (fun r => r.2.2)).getD []

/-- Second commit, after the anchor. -/
def exRes3 : Option (StoreState × StoredCommitment × List (List DbWrite)) :=
  commitOp exHL exH exSign exStore2 "agreement" exPayloadB "commit_1" 300

def exStore3 : StoreState := (exRes3.map (fun r => r.1)).getD exStore2

/-- Commit chain without any anchor (payload assembled between the two
states): used by the C4 counterexample. -/
def exResC4 : Option (StoreState × StoredCommitment × List (List DbWrite)) :=
  commitOp exHL exH exSign exStore1 "agreement" exPayloadB "commit_1" 300

def exStoreC4 : StoreState := (exResC4.map (fun r => r.1)).getD exStore1

def exCC4 : StoredCommitment := (exResC4.map (fun r => r.2.1)).getD noCommitment

def exCC4gs : List (List DbWrite) := (exResC4.map (fun r => r.2.2)).getD []

-- ===========================================================================
-- C3: open performs no root-consistency check
-- ===========================================================================

/-- Amended C3: on every open, the store rebuilds the tree by replaying
the persisted commitments in treeIndex order, and then returns the store
unconditionally — the rebuilt root is never compared with the persisted
`tree_state` rootHash, and `open` never refuses. -/
theorem C3_open_never_refuses (h : String → String → String) (db : DbState) :
    ∃ s, openStore h db = some s ∧ s.db = db ∧
      buildTree h (replayedLeafHashes db) = some s.tree := by
  obtain ⟨t, hb, _⟩ := buildTree_inv h (replayedLeafHashes db)
  refine ⟨⟨db, t⟩, ?_, rfl, hb⟩
  simp [openStore, hb]

/-- A store whose persisted root disagrees with the replayed
commitments. -/
def exDbBad : DbState :=
  ⟨[⟨"commit_0", "agreement", .null, 100, "cafe", some "aaaa", some 0⟩],
    fun _ _ => none, ⟨some "not-the-root", 1, -1⟩, []⟩

/-- C3 counterexample: the rebuilt root differs from the persisted
`tree_state` rootHash, yet `open` returns a usable store instead of
failing. -/
theorem C3_counterexample :
    (openStore exH exDbBad).map (fun s => (s.tree.getRoot, s.db.treeState.rootHash)) =
      some (some "aaaa", some "not-the-root") ∧
    (some "aaaa" : Option String) ≠ some "not-the-root" := by
  constructor
  · rfl
  · decide

-- ===========================================================================
-- C4: recordAnchor snapshots the state at RECORDING time
-- ===========================================================================

theorem addLeafHash_leafCount (h : α → α → α) (t t' : MerkleTree α) (v : α) (idx : Nat)
    (hadd : t.addLeafHash h v = some (t', idx)) :
    t'.leafCount = t.leafCount + 1 ∧ idx = t.leafCount := by
  simp only [MerkleTree.addLeafHash] at hadd
  split at hadd
  · simp only [Option.some.injEq, Prod.mk.injEq] at hadd
    obtain ⟨h1, h2⟩ := hadd
    rw [← h1, ← h2]
    exact ⟨rfl, rfl⟩
  · exact absurd hadd (by simp)

theorem addLeaf_leafCount (hashLeafFn : β → α) (h : α → α → α) (t t' : MerkleTree α)
    (d : β) (hv : α) (idx : Nat)
    (hadd : t.addLeaf hashLeafFn h d = some (t', hv, idx)) :
    t'.leafCount = t.leafCount + 1 ∧ idx = t.leafCount ∧ hv = hashLeafFn d := by
  simp only [MerkleTree.addLeaf] at hadd
  split at hadd
  · rename_i tr idx2 hadd2
    simp only [Option.some.injEq, Prod.mk.injEq] at hadd
    obtain ⟨h1, h2, h3⟩ := hadd
    obtain ⟨hcount, hidx⟩ := addLeafHash_leafCount h t tr (hashLeafFn d) idx2 hadd2
    exact ⟨h1 ▸ hcount, h3 ▸ hidx, h2.symm⟩
  · exact absurd hadd (by simp)

theorem commitOp_effect (hashLeafFn : String → String) (h : String → String → String)
    (signFn : String → String) (s s₂ : StoreState) (ctype : String) (payload : Jv)
    (id : String) (ts : Int) (c : StoredCommitment) (gs : List (List DbWrite))
    (hc : commitOp hashLeafFn h signFn s ctype payload id ts = some (s₂, c, gs)) :
    s₂.tree.leafCount = s.tree.leafCount + 1 ∧ c.treeIndex = some s.tree.leafCount := by
  simp only [commitOp] at hc
  split at hc
  · exact absurd hc (by simp)
  · rename_i tree' hash index heq
    simp only [Option.some.injEq, Prod.mk.injEq] at hc
    obtain ⟨hs2, hcc, _⟩ := hc
    obtain ⟨hcount, hidx, _⟩ :=
      addLeaf_leafCount _ h s.tree tree' _ hash index heq
    constructor
    · rw [← hs2]
      exact hcount
    · rw [← hcc]
      simp [hidx]

/-- Amended C4: the recorded anchor's `rootHash` and `commitmentCount`
are read from the tree state at RECORDING time — after a commit between
payload assembly and `recordAnchor`, the anchor carries the newer count
and root, not the assembled ones.  `anchorIndex = last + 1` and
`previousAnchor = last txid` do hold. -/
theorem C4_record_uses_recording_state (hashLeafFn : String → String)
    (h : String → String → String) (signFn : String → String)
    (s s₂ : StoreState) (ctype : String) (payload : Jv) (id : String) (ts : Int)
    (c : StoredCommitment) (gs : List (List DbWrite))
    (hc : commitOp hashLeafFn h signFn s ctype payload id ts = some (s₂, c, gs))
    (txid : String) (ats : Int) (root' : String)
    (hroot : s₂.tree.getRoot = some root') :
    ∃ s₃ a gs₂, recordAnchorOp s₂ txid ats = some (s₃, a, gs₂) ∧
      a.rootHash = root' ∧
      a.commitmentCount = s₂.tree.leafCount ∧
      s₂.tree.leafCount = s.tree.leafCount + 1 ∧
      a.anchorIndex = (match getLatestAnchor s₂.db with
        | some la => la.anchorIndex + 1
        | none => 0) ∧
      a.previousAnchor = (getLatestAnchor s₂.db).map (fun la => la.txid) ∧
      a.txid = txid := by
  have heff := commitOp_effect hashLeafFn h signFn s s₂ ctype payload id ts c gs hc
  simp only [recordAnchorOp, hroot]
  exact ⟨_, _, _, rfl, rfl, rfl, heff.1, rfl, rfl, rfl⟩

/-- Witness for the amended C4 at the concrete scenario. -/
theorem C4_record_uses_recording_state_witness :
    commitOp exHL exH exSign exStore1 "agreement" exPayloadB "commit_1" 300 =
      some (exStoreC4, exCC4, exCC4gs) ∧
    exStoreC4.tree.getRoot = some ((exStoreC4.tree.getRoot).getD "") ∧
    ∃ s₃ a gs₂, recordAnchorOp exStoreC4 "1212" 400 = some (s₃, a, gs₂) ∧
      a.rootHash = (exStoreC4.tree.getRoot).getD "" ∧
      a.commitmentCount = exStoreC4.tree.leafCount ∧
      exStoreC4.tree.leafCount = exStore1.tree.leafCount + 1 ∧
      a.anchorIndex = (match getLatestAnchor exStoreC4.db with
        | some la => la.anchorIndex + 1
        | none => 0) ∧
      a.previousAnchor = (getLatestAnchor exStoreC4.db).map (fun la => la.txid) ∧
      a.txid = "1212" :=
  ⟨rfl, rfl,
    C4_record_uses_recording_state exHL exH exSign exStore1 exStoreC4 "agreement"
      exPayloadB "commit_1" 300 exCC4 exCC4gs rfl "1212" 400
      ((exStoreC4.tree.getRoot).getD "") rfl⟩

/-- C4 counterexample: payload assembly happens at a one-commit state
(count 1, root R1); a second commit intervenes; `recordAnchor` then
stores count 2 and the NEW root — not the tree state at the moment of
payload assembly. -/
theorem C4_counterexample :
    (buildAnchorPayloadOp exStore1).isSome = true ∧
    exStore1.tree.leafCount = 1 ∧
    (recordAnchorOp exStoreC4 "1212" 400).map (fun r => r.2.1.commitmentCount) =
      some 2 ∧
    (recordAnchorOp exStoreC4 "1212" 400).map
      (fun r => decide (some r.2.1.rootHash = exStore1.tree.getRoot)) = some false ∧
    (recordAnchorOp exStoreC4 "1212" 400).map
      (fun r => decide (some r.2.1.rootHash = exStoreC4.tree.getRoot)) = some true := by
  refine ⟨?_, rfl, ?_, ?_, ?_⟩ <;> rfl

-- ===========================================================================
-- C5: write-trace atomicity
-- ===========================================================================

/-- Amended C5: `commit` persists everything in ONE transaction (any
crash prefix equals either the initial or the final database), but
`recordAnchor` issues TWO separate atomic writes: inserting the anchor
row and advancing the tree state.  A crash between them leaves the
anchor row persisted with the tree state not yet advanced. -/
theorem C5_commit_atomic_record_not :
    (∀ (hashLeafFn : String → String) (h : String → String → String)
        (signFn : String → String) (s : StoreState) (ctype : String) (payload : Jv)
        (id : String) (ts : Int) (s₂ : StoreState) (c : StoredCommitment)
        (gs : List (List DbWrite)),
      commitOp hashLeafFn h signFn s ctype payload id ts = some (s₂, c, gs) →
      gs.length = 1 ∧ s₂.db = applyGroups s.db gs ∧
        ∀ k, applyGroups s.db (gs.take k) = s.db ∨
          applyGroups s.db (gs.take k) = s₂.db) ∧
    (∀ (s : StoreState) (txid : String) (ats : Int) (s₃ : StoreState) (a : Anchor)
        (gs₂ : List (List DbWrite)),
      recordAnchorOp s txid ats = some (s₃, a, gs₂) →
      gs₂.length = 2 ∧ s₃.db = applyGroups s.db gs₂ ∧
        (applyGroups s.db (gs₂.take 1)).anchors = s.db.anchors ++ [a] ∧
        (applyGroups s.db (gs₂.take 1)).treeState = s.db.treeState ∧
        s₃.db.treeState.lastAnchorIndex = (a.anchorIndex : Int)) := by
  constructor
  · intro hashLeafFn h signFn s ctype payload id ts s₂ c gs hc
    simp only [commitOp] at hc
    split at hc
    · exact absurd hc (by simp)
    · simp only [Option.some.injEq, Prod.mk.injEq] at hc
      obtain ⟨hs2, _, hgs⟩ := hc
      refine ⟨by rw [← hgs]; rfl, by rw [← hs2, ← hgs], ?_⟩
      intro k
      cases k with
      | zero => left; rfl
      | succ k =>
        right
        rw [← hgs, ← hs2]
        cases k <;> rfl
  · intro s txid ats s₃ a gs₂ hr
    simp only [recordAnchorOp] at hr
    split at hr
    · exact absurd hr (by simp)
    · simp only [Option.some.injEq, Prod.mk.injEq] at hr
      obtain ⟨hs3, ha, hgs⟩ := hr
      refine ⟨by rw [← hgs]; rfl, by rw [← hs3, ← hgs], ?_, ?_, ?_⟩
      · rw [← hgs, ← ha]
        rfl
      · rw [← hgs]
        rfl
      · rw [← hs3, ← ha]
        rfl

/-- Witness for the amended C5 at the concrete scenario (one commit,
then one recorded anchor). -/
theorem C5_commit_atomic_record_not_witness :
    commitOp exHL exH exSign exStore0 "agreement" exPayloadA "commit_0" 100 =
      some (exStore1, exC1c, exC1gs) ∧
    recordAnchorOp exStore1 "1111" 200 = some (exStore2, exA0, exA0gs) ∧
    (exC1gs.length = 1 ∧ exStore1.db = applyGroups exStore0.db exC1gs ∧
      ∀ k, applyGroups exStore0.db (exC1gs.take k) = exStore0.db ∨
        applyGroups exStore0.db (exC1gs.take k) = exStore1.db) ∧
    (exA0gs.length = 2 ∧ exStore2.db = applyGroups exStore1.db exA0gs ∧
      (applyGroups exStore1.db (exA0gs.take 1)).anchors = exStore1.db.anchors ++ [exA0] ∧
      (applyGroups exStore1.db (exA0gs.take 1)).treeState = exStore1.db.treeState ∧
      exStore2.db.treeState.lastAnchorIndex = (exA0.anchorIndex : Int)) :=
  ⟨rfl, rfl,
    C5_commit_atomic_record_not.1 exHL exH exSign exStore0 "agreement" exPayloadA
      "commit_0" 100 exStore1 exC1c exC1gs rfl,
    C5_commit_atomic_record_not.2 exStore1 "1111" 200 exStore2 exA0 exA0gs rfl⟩

/-- C5 counterexample: after the first of `recordAnchor`'s two write
groups the database holds the anchor row (1 anchor) while
`lastAnchorIndex` still reads `-1` — a state that is neither the initial
one (0 anchors) nor the final one (`lastAnchorIndex = 0`), so the
operation is not atomic. -/
theorem C5_counterexample :
    (recordAnchorOp exStore1 "1111" 200).map
      (fun r => ((applyGroups exStore1.db (r.2.2.take 1)).anchors.length,
                 (applyGroups exStore1.db (r.2.2.take 1)).treeState.lastAnchorIndex,
                 r.1.db.anchors.length,
                 r.1.db.treeState.lastAnchorIndex)) = some (1, -1, 1, 0) ∧
    exStore1.db.anchors.length = 0 ∧
    exStore1.db.treeState.lastAnchorIndex = -1 := by
  refine ⟨?_, ?_, ?_⟩ <;> rfl

-- ===========================================================================
-- C6: anchor payload layout
-- ===========================================================================

theorem uint32be_length (n : Nat) : (uint32be n).length = 4 := rfl

theorem uint32be_decode (n : Nat) (hn : n < 2 ^ 32) :
    (uint32be n).foldl (fun acc b => 256 * acc + b) 0 = n := by
  simp only [uint32be, List.foldl]
  omega

/-- Layout of `protocol ++ version ++ root ++ count ++ prev` for blocks
of the documented sizes. -/
theorem payload_layout_generic (rb u4 pv : List Nat)
    (h32 : rb.length = 32) (h4 : u4.length = 4) (hp32 : pv.length = 32) :
    (protocolBytes ++ [1] ++ rb ++ u4 ++ pv).length = 79 ∧
    (protocolBytes ++ [1] ++ rb ++ u4 ++ pv).take 10 = protocolBytes ∧
    (protocolBytes ++ [1] ++ rb ++ u4 ++ pv).get? 10 = some 1 ∧
    ((protocolBytes ++ [1] ++ rb ++ u4 ++ pv).drop 11).take 32 = rb ∧
    ((protocolBytes ++ [1] ++ rb ++ u4 ++ pv).drop 43).take 4 = u4 ∧
    (protocolBytes ++ [1] ++ rb ++ u4 ++ pv).drop 47 = pv := by
  have hp10 : protocolBytes.length = 10 := rfl
  refine ⟨?_, ?_, ?_, ?_, ?_, ?_⟩
  · simp [List.length_append, h32, h4, hp32, hp10]
  · have hsplit : protocolBytes ++ [1] ++ rb ++ u4 ++ pv =
        protocolBytes ++ ([1] ++ (rb ++ (u4 ++ pv))) := by
      simp [List.append_assoc]
    rw [hsplit, show (10 : Nat) = protocolBytes.length from rfl, List.take_left]
  · have hsplit : protocolBytes ++ [1] ++ rb ++ u4 ++ pv =
        protocolBytes ++ ([1] ++ (rb ++ (u4 ++ pv))) := by
      simp [List.append_assoc]
    rw [hsplit, List.get?_eq_getElem?,
      List.getElem?_append_right (by rw [hp10]),
      show 10 - protocolBytes.length = 0 from rfl]
    simp
  · have hsplit : protocolBytes ++ [1] ++ rb ++ u4 ++ pv =
        (protocolBytes ++ [1]) ++ (rb ++ (u4 ++ pv)) := by
      simp [List.append_assoc]
    have h11 : (protocolBytes ++ [1]).length = 11 := rfl
    rw [hsplit, show (11 : Nat) = (protocolBytes ++ [1]).length from h11.symm,
      List.drop_left, show (32 : Nat) = rb.length from h32.symm, List.take_left]
  · have hsplit : protocolBytes ++ [1] ++ rb ++ u4 ++ pv =
        ((protocolBytes ++ [1]) ++ rb) ++ (u4 ++ pv) := by
      simp [List.append_assoc]
    have h43 : ((protocolBytes ++ [1]) ++ rb).length = 43 := by
      simp [List.length_append, h32, hp10]
    rw [hsplit, show (43 : Nat) = ((protocolBytes ++ [1]) ++ rb).length from h43.symm,
      List.drop_left, show (4 : Nat) = u4.length from h4.symm, List.take_left]
  · have hsplit : protocolBytes ++ [1] ++ rb ++ u4 ++ pv =
        (((protocolBytes ++ [1]) ++ rb) ++ u4) ++ pv := by
      simp [List.append_assoc]
    have h47 : (((protocolBytes ++ [1]) ++ rb) ++ u4).length = 47 := by
      simp [List.length_append, h32, h4, hp10]
    rw [hsplit, show (47 : Nat) = (((protocolBytes ++ [1]) ++ rb) ++ u4).length
      from h47.symm, List.drop_left]

/-- C6: for every non-empty tree (with a well-formed 32-byte hex root,
and a 32-byte hex previous txid when an anchor exists),
`buildAnchorPayload` returns exactly 79 bytes: ASCII `BSV-ANCHOR`, the
version byte `0x01`, the raw 32-byte root, the commitment count as a
big-endian unsigned 32-bit integer, and the previous anchor's txid
bytes, or 32 zero bytes when no anchor has been recorded yet. -/
theorem C6_payload_layout (s : StoreState) (root : String) (rootBytes : List Nat)
    (hroot : s.tree.getRoot = some root)
    (hrb : hexToBytes root = some rootBytes) (hrb32 : rootBytes.length = 32)
    (hprev : ∀ a, getLatestAnchor s.db = some a →
      ∃ pb, hexToBytes a.txid = some pb ∧ pb.length = 32) :
    ∃ payload, buildAnchorPayloadOp s = some payload ∧
      payload.length = 79 ∧
      payload.take 10 = protocolBytes ∧
      protocolBytes = [66, 83, 86, 45, 65, 78, 67, 72, 79, 82] ∧
      payload.get? 10 = some 1 ∧
      (payload.drop 11).take 32 = rootBytes ∧
      (payload.drop 43).take 4 = uint32be (getCommitmentCount s.db) ∧
      (getCommitmentCount s.db < 2 ^ 32 →
        ((payload.drop 43).take 4).foldl (fun acc b => 256 * acc + b) 0 =
          getCommitmentCount s.db) ∧
      (getLatestAnchor s.db = none → payload.drop 47 = List.replicate 32 0) ∧
      (∀ a pb, getLatestAnchor s.db = some a → hexToBytes a.txid = some pb →
        payload.drop 47 = pb) := by
  cases hla : getLatestAnchor s.db with
  | none =>
    refine ⟨protocolBytes ++ [1] ++ rootBytes ++ uint32be (getCommitmentCount s.db) ++
      List.replicate 32 0, ?_, ?_⟩
    · simp only [buildAnchorPayloadOp, hroot, hrb, hla]
    · obtain ⟨hlen, htake, hget, hroot', hcount, hdrop⟩ :=
        payload_layout_generic rootBytes (uint32be (getCommitmentCount s.db))
          (List.replicate 32 0) hrb32 (uint32be_length _) (by simp)
      refine ⟨hlen, htake, rfl, hget, hroot', hcount, ?_, ?_, ?_⟩
      · intro hlt
        rw [hcount]
        exact uint32be_decode _ hlt
      · intro _
        exact hdrop
      · intro a pb ha _
        exact absurd ha (by simp)
  | some a =>
    obtain ⟨pb, hpb, hpb32⟩ := hprev a hla
    refine ⟨protocolBytes ++ [1] ++ rootBytes ++ uint32be (getCommitmentCount s.db) ++
      pb, ?_, ?_⟩
    · simp only [buildAnchorPayloadOp, hroot, hrb, hla, hpb]
    · obtain ⟨hlen, htake, hget, hroot', hcount, hdrop⟩ :=
        payload_layout_generic rootBytes (uint32be (getCommitmentCount s.db))
          pb hrb32 (uint32be_length _) hpb32
      refine ⟨hlen, htake, rfl, hget, hroot', hcount, ?_, ?_, ?_⟩
      · intro hlt
        rw [hcount]
        exact uint32be_decode _ hlt
      · intro hnone
        exact absurd hnone (by simp)
      · intro a' pb' ha' hpb'
        obtain rfl := Option.some_injective _ ha'
        rw [hpb] at hpb'
        obtain rfl := Option.some_injective _ hpb'
        exact hdrop

/-- A concrete non-empty store with a 64-hex-character root for the C6
witness: a single leaf whose stored hash is a 64-char hex string. -/
def exRoot64 : String :=
  "00e1e1e1e1e1e1e1e1e1e1e1e1e1e1e1e1e1e1e1e1e1e1e1e1e1e1e1e1e1e1e1"

def exDb6 : DbState :=
  ⟨[⟨"commit_0", "agreement", Jv.null, 100, "cafe", some exRoot64, some 0⟩],
    fun _ _ => none, ⟨some exRoot64, 1, -1⟩, []⟩

def exStore6 : StoreState :=
  ⟨exDb6, (buildTree exH [exRoot64]).getD MerkleTree.empty⟩

/-- Witness for C6 at the concrete one-leaf store. -/
theorem C6_payload_layout_witness :
    exStore6.tree.getRoot = some exRoot64 ∧
    hexToBytes exRoot64 = some ((hexToBytes exRoot64).getD []) ∧
    ((hexToBytes exRoot64).getD []).length = 32 ∧
    ∃ payload, buildAnchorPayloadOp exStore6 = some payload ∧
      payload.length = 79 ∧
      payload.take 10 = protocolBytes ∧
      protocolBytes = [66, 83, 86, 45, 65, 78, 67, 72, 79, 82] ∧
      payload.get? 10 = some 1 ∧
      (payload.drop 11).take 32 = (hexToBytes exRoot64).getD [] ∧
      (payload.drop 43).take 4 = uint32be (getCommitmentCount exStore6.db) ∧
      (getCommitmentCount exStore6.db < 2 ^ 32 →
        ((payload.drop 43).take 4).foldl (fun acc b => 256 * acc + b) 0 =
          getCommitmentCount exStore6.db) ∧
      (getLatestAnchor exStore6.db = none → payload.drop 47 = List.replicate 32 0) ∧
      (∀ a pb, getLatestAnchor exStore6.db = some a → hexToBytes a.txid = some pb →
        payload.drop 47 = pb) :=
  ⟨rfl, rfl, by decide,
    C6_payload_layout exStore6 exRoot64 ((hexToBytes exRoot64).getD []) rfl rfl
      (by decide) (fun a ha => nomatch ha)⟩

-- ===========================================================================
-- Well-formed running stores (C2, C7)
-- ===========================================================================

/-- Leaf hash of a stored commitment, as `commit` computes it. -/
def leafHashOf (hashLeafFn : String → String) (c : StoredCommitment) : String :=
  hashLeafFn (canonicalizeCommitment (commitmentRecOf c))

/-- Invariants of a store reached through the API: the in-memory tree is
the fold of the stored commitments' leaf hashes in insertion order, each
commitment's `treeIndex` is its position, and each stored `leafHash` is
the hash of its canonical signed image. -/
structure WFStore (hashLeafFn : String → String) (h : String → String → String)
    (s : StoreState) : Prop where
  tree_built : buildTree h (s.db.commitments.map (leafHashOf hashLeafFn)) = some s.tree
  idx_assigned : ∀ (k : Nat) (hk : k < s.db.commitments.length),
    (s.db.commitments.get ⟨k, hk⟩).treeIndex = some k
  hash_assigned : ∀ c ∈ s.db.commitments, c.leafHash = some (leafHashOf hashLeafFn c)

theorem find?_first_of_sorted (p : Anchor → Bool) (a : Anchor) :
    ∀ l : List Anchor, List.Sorted anchorLe l → l.find? p = some a →
      ∀ b ∈ l, p b = true → a.anchorIndex ≤ b.anchorIndex := by
  intro l
  induction l with
  | nil =>
    intro _ hf
    cases hf
  | cons x l' ih =>
    intro hs hf
    cases hpx : p x with
    | true =>
      rw [List.find?_cons_of_pos _ hpx] at hf
      obtain rfl := Option.some_injective _ hf
      intro b hb hpb
      rcases List.mem_cons.mp hb with rfl | hb'
      · exact le_refl _
      · exact (List.sorted_cons.mp hs).1 b hb'
    | false =>
      rw [List.find?_cons_of_neg _ (by simp [hpx])] at hf
      intro b hb hpb
      rcases List.mem_cons.mp hb with rfl | hb'
      · rw [hpx] at hpb
        cases hpb
      · exact ih (List.sorted_cons.mp hs).2 hf b hb' hpb

/-- C7: for every stored commitment `c`, `prove(c.id)` binds `c` to the
first anchor in `anchorIndex` order whose `commitmentCount` exceeds
`c.treeIndex` (the proof's anchor reference is that anchor's txid), and
`prove` returns null exactly when the id is unknown or no anchor with
`commitmentCount > c.treeIndex` exists. -/
theorem C7_prove_binding (hashLeafFn : String → String) (h : String → String → String)
    (s : StoreState) (hwf : WFStore hashLeafFn h s) (commitmentId : String) :
    (getCommitment s.db commitmentId = none → proveOp s commitmentId = none) ∧
    (∀ c, getCommitment s.db commitmentId = some c →
      ∃ i, c.treeIndex = some i ∧ i < s.db.commitments.length ∧
        ((∀ b ∈ s.db.anchors, ¬ i < b.commitmentCount) →
          proveOp s commitmentId = none) ∧
        (∀ a, (getAllAnchors s.db).find? (fun b => decide (i < b.commitmentCount)) =
            some a →
          a ∈ s.db.anchors ∧ i < a.commitmentCount ∧
          (∀ b ∈ s.db.anchors, i < b.commitmentCount → a.anchorIndex ≤ b.anchorIndex) ∧
          ∃ p, proveOp s commitmentId = some p ∧ p.anchor.txid = a.txid ∧
            p.commitment = c) ∧
        ((∃ b ∈ s.db.anchors, i < b.commitmentCount) →
          ∃ p, proveOp s commitmentId = some p)) := by
  have hperm := List.perm_insertionSort anchorLe s.db.anchors
  have hsorted := List.sorted_insertionSort anchorLe s.db.anchors
  constructor
  · intro hnone
    simp [proveOp, hnone]
  · intro c hc
    have hmem : c ∈ s.db.commitments := List.mem_of_find?_eq_some hc
    obtain ⟨⟨k, hk⟩, hget⟩ := List.mem_iff_get.mp hmem
    have hidx : c.treeIndex = some k := by
      rw [← hget]
      exact hwf.idx_assigned k hk
    obtain ⟨t', ht', hinv⟩ :=
      buildTree_inv h (s.db.commitments.map (leafHashOf hashLeafFn))
    rw [hwf.tree_built] at ht'
    obtain rfl := Option.some_injective _ ht'
    have hleni : k < (s.db.commitments.map (leafHashOf hashLeafFn)).length := by
      simpa using hk
    obtain ⟨mp, hgen, _, _, _, _⟩ :=
      generateProof_correct h (s.db.commitments.map (leafHashOf hashLeafFn))
        s.tree hinv k hleni
    refine ⟨k, hidx, hk, ?_, ?_, ?_⟩
    · intro hnocov
      have hfind : (getAllAnchors s.db).find?
          (fun b => decide (k < b.commitmentCount)) = none := by
        rw [List.find?_eq_none]
        intro x hx
        have hx' : x ∈ s.db.anchors := hperm.mem_iff.mp hx
        simpa using hnocov x hx'
      simp [proveOp, hc, hidx, hgen, hfind]
    · intro a hfind
      have hamem : a ∈ s.db.anchors :=
        hperm.mem_iff.mp (List.mem_of_find?_eq_some hfind)
      have hpred : k < a.commitmentCount := by
        simpa using List.find?_some hfind
      refine ⟨hamem, hpred, ?_, ?_⟩
      · intro b hb hbc
        exact find?_first_of_sorted _ a (getAllAnchors s.db) hsorted hfind b
          (hperm.mem_iff.mpr hb) (by simpa using hbc)
      · refine ⟨⟨c, mp, ⟨a.txid, a.blockHeight, a.timestamp⟩⟩, ?_, rfl, rfl⟩
        simp [proveOp, hc, hidx, hgen, hfind]
    · rintro ⟨b, hb, hbc⟩
      cases hfind : (getAllAnchors s.db).find?
          (fun x => decide (k < x.commitmentCount)) with
      | none =>
        exfalso
        rw [List.find?_eq_none] at hfind
        exact absurd (by simpa using hfind b (hperm.mem_iff.mpr hb)) (by simpa using hbc)
      | some a =>
        refine ⟨⟨c, mp, ⟨a.txid, a.blockHeight, a.timestamp⟩⟩, ?_⟩
        simp [proveOp, hc, hidx, hgen, hfind]

/-- Witness for C7: the two-commitment, one-anchor scenario store. -/
theorem C7_prove_binding_witness :
    (∃ hwf : WFStore exHL exH exStore3, True) ∧
    ((getCommitment exStore3.db "commit_0" = none →
        proveOp exStore3 "commit_0" = none) ∧
      (∀ c, getCommitment exStore3.db "commit_0" = some c →
        ∃ i, c.treeIndex = some i ∧ i < exStore3.db.commitments.length ∧
          ((∀ b ∈ exStore3.db.anchors, ¬ i < b.commitmentCount) →
            proveOp exStore3 "commit_0" = none) ∧
          (∀ a, (getAllAnchors exStore3.db).find?
              (fun b => decide (i < b.commitmentCount)) = some a →
            a ∈ exStore3.db.anchors ∧ i < a.commitmentCount ∧
            (∀ b ∈ exStore3.db.anchors, i < b.commitmentCount →
              a.anchorIndex ≤ b.anchorIndex) ∧
            ∃ p, proveOp exStore3 "commit_0" = some p ∧ p.anchor.txid = a.txid ∧
              p.commitment = c) ∧
          ((∃ b ∈ exStore3.db.anchors, i < b.commitmentCount) →
            ∃ p, proveOp exStore3 "commit_0" = some p))) := by
  have hwf : WFStore exHL exH exStore3 := by
    refine ⟨rfl, ?_, ?_⟩
    · intro k hk
      have hlen : exStore3.db.commitments.length = 2 := rfl
      rw [hlen] at hk
      interval_cases k <;> rfl
    · decide
  exact ⟨⟨hwf, trivial⟩, C7_prove_binding exHL exH exStore3 hwf "commit_0"⟩

-- ===========================================================================
-- C2: what verification actually checks
-- ===========================================================================

/-- Amended C2: verification accepts a proof iff the folded root equals
the proof's OWN `rootHash` field and the leaf hash matches the embedded
commitment; the bound anchor's stored `rootHash` is never consulted.
Proofs produced by `prove` fold to the CURRENT tree root (and verify),
which can differ from the bound anchor's `rootHash` when commits
happened after that anchor. -/
theorem C2_verification_checks_own_root (hashLeafFn : String → String)
    (h : String → String → String) (s : StoreState) (hwf : WFStore hashLeafFn h s)
    (commitmentId : String) (p : CommitmentProof)
    (hp : proveOp s commitmentId = some p) :
    verifyInclusion hashLeafFn h p = true ∧
    some (foldSiblings h p.merkleProof.siblings p.merkleProof.leafHash) =
      s.tree.getRoot ∧
    some p.merkleProof.rootHash = s.tree.getRoot ∧
    (∀ q : CommitmentProof, verifyInclusion hashLeafFn h q = true ↔
      (foldSiblings h q.merkleProof.siblings q.merkleProof.leafHash =
          q.merkleProof.rootHash ∧
        hashLeafFn (canonicalizeCommitment (commitmentRecOf q.commitment)) =
          q.merkleProof.leafHash)) := by
  have hiff : ∀ q : CommitmentProof, verifyInclusion hashLeafFn h q = true ↔
      (foldSiblings h q.merkleProof.siblings q.merkleProof.leafHash =
          q.merkleProof.rootHash ∧
        hashLeafFn (canonicalizeCommitment (commitmentRecOf q.commitment)) =
          q.merkleProof.leafHash) := by
    intro q
    simp [verifyInclusion, verifyProof]
  simp only [proveOp] at hp
  split at hp
  · cases hp
  · rename_i c hc
    split at hp
    · cases hp
    · rename_i i hidx
      split at hp
      · cases hp
      · rename_i mp hgen
        split at hp
        · cases hp
        · rename_i a hfind
          obtain rfl := Option.some_injective _ hp
          -- recover the position of c and the tree invariant
          have hmem : c ∈ s.db.commitments := List.mem_of_find?_eq_some hc
          obtain ⟨⟨k, hk⟩, hget⟩ := List.mem_iff_get.mp hmem
          have hidx' : c.treeIndex = some k := by
            rw [← hget]
            exact hwf.idx_assigned k hk
          have hik : i = k := by
            rw [hidx'] at hidx
            exact (Option.some_injective _ hidx).symm
          subst hik
          obtain ⟨t', ht', hinv⟩ :=
            buildTree_inv h (s.db.commitments.map (leafHashOf hashLeafFn))
          rw [hwf.tree_built] at ht'
          obtain rfl := Option.some_injective _ ht'
          have hleni : i < (s.db.commitments.map (leafHashOf hashLeafFn)).length := by
            simpa using hk
          obtain ⟨mp', hgen', hrootEq, hleafGet, _, hver⟩ :=
            generateProof_correct h (s.db.commitments.map (leafHashOf hashLeafFn))
              s.tree hinv i hleni
          rw [hgen] at hgen'
          obtain rfl := Option.some_injective _ hgen'
          -- the generated leaf hash is the commitment's leaf hash
          have hgetc : s.db.commitments.get? i = some c := by
            rw [← hget]
            exact List.get?_eq_get hk
          have hleafc : mp.leafHash = leafHashOf hashLeafFn c := by
            rw [List.get?_map, hgetc] at hleafGet
            simpa using hleafGet.symm
          have hfold : foldSiblings h mp.siblings mp.leafHash = mp.rootHash := by
            simpa [verifyProof] using hver
          refine ⟨?_, ?_, ?_, hiff⟩
          · rw [hiff]
            exact ⟨hfold, hleafc.symm⟩
          · rw [hfold]
            exact hrootEq
          · exact hrootEq

/-- Witness for the amended C2 on the concrete scenario store. -/
theorem C2_verification_checks_own_root_witness :
    (∃ hwf : WFStore exHL exH exStore3, True) ∧
    (proveOp exStore3 "commit_0").isSome = true ∧
    (∀ p, proveOp exStore3 "commit_0" = some p →
      verifyInclusion exHL exH p = true ∧
      some (foldSiblings exH p.merkleProof.siblings p.merkleProof.leafHash) =
        exStore3.tree.getRoot ∧
      some p.merkleProof.rootHash = exStore3.tree.getRoot ∧
      (∀ q : CommitmentProof, verifyInclusion exHL exH q = true ↔
        (foldSiblings exH q.merkleProof.siblings q.merkleProof.leafHash =
            q.merkleProof.rootHash ∧
          exHL (canonicalizeCommitment (commitmentRecOf q.commitment)) =
            q.merkleProof.leafHash))) := by
  have hwf : WFStore exHL exH exStore3 := by
    refine ⟨rfl, ?_, ?_⟩
    · intro k hk
      have hlen : exStore3.db.commitments.length = 2 := rfl
      rw [hlen] at hk
      interval_cases k <;> rfl
    · decide
  refine ⟨⟨hwf, trivial⟩, rfl, ?_⟩
  intro p hp
  exact C2_verification_checks_own_root exHL exH exStore3 hwf "commit_0" p hp

/-- C2 counterexample: in the scenario (commit, anchor `1111`, commit),
`prove("commit_0")` binds anchor `1111`, verification accepts the proof,
yet the folded root (the current two-leaf root) DIFFERS from the bound
anchor's stored `rootHash` (the one-leaf root) — so "any proof whose
computed root differs from the bound anchor's rootHash is rejected" is
false of the code. -/
theorem C2_counterexample :
    (proveOp exStore3 "commit_0").map
      (fun p => (verifyInclusion exHL exH p,
        p.anchor.txid,
        (getAnchorByTxid exStore3.db p.anchor.txid).map
          (fun a => decide (foldSiblings exH p.merkleProof.siblings
            p.merkleProof.leafHash = a.rootHash)))) =
      some (true, "1111", some false) := by
  rfl

-- ===========================================================================
-- Proof handler rate limiting (ProofHandler.checkRateLimit / handleRequest)
-- ===========================================================================

/-- The sliding window: `60 * 1000` ms. -/
def windowMs : Nat := 60000

/-- `checkRateLimit(peerId)`: drop stored timestamps older than the
window, refuse when the cap is reached (leaving the stored map
unchanged), otherwise record `now` for the peer.  The
`Map<string, number[]>` with a `?? []` default is a total function. -/
def checkRateLimit (limit : Nat) (rl : String → List Nat) (peerId : String)
    (now : Nat) : Bool × (String → List Nat) :=
  let timestamps := (rl peerId).filter (fun t => decide (now - t < windowMs))
  if limit ≤ timestamps.length then (false, rl)
  else (true, fun p => if p = peerId then timestamps ++ [now] else rl p)

/-- The request's `query` field, reduced to what `validateRequest`
reads. -/
structure ProofQuery where
  limit : Option Nat
deriving DecidableEq

/-- A `PROOF_REQUEST`, reduced to what the handler inspects. -/
structure ProofRequest where
  requestId : String
  commitmentId : Option String
  query : Option ProofQuery
deriving DecidableEq

/-- JS truthiness of the optional `commitmentId` (`undefined` and the
empty string are falsy). -/
def truthyStr : Option String → Bool
  | none => false
  | some s => !s.isEmpty

/-- JS truthiness of the optional numeric `limit` (`undefined` and `0`
are falsy). -/
def truthyNat : Option Nat → Bool
  | none => false
  | some n => !(n == 0)

/-- `validateRequest` from protocol.ts: a request must carry a
`commitmentId` or a `query`, and a truthy `query.limit` must not exceed
100. -/
def validateRequest (r : ProofRequest) : Bool :=
  if !truthyStr r.commitmentId && r.query.isNone then false
  else if (match r.query with
    | some q => truthyNat q.limit && decide (100 < q.limit.getD 0)
    | none => false) then false
  else true

/-- Outcome of `handleRequest`: a `RATE_LIMITED` error, an
`INVALID_REQUEST` error, or a served response. -/
inductive HandlerOutcome where
  | rateLimited
  | invalidRequest
  | served
deriving DecidableEq, Repr

structure HandleResult where
  outcome : HandlerOutcome
  storeInvoked : Bool
  rl : String → List Nat

/-- `ProofHandler.handleRequest`: the rate limit is checked first — on
refusal the handler answers `RATE_LIMITED` without touching the store;
then validation; only a validated request reaches `store.prove` /
`store.query` (`storeInvoked`). -/
def handleRequest (limit : Nat) (rl : String → List Nat) (req : ProofRequest)
    (peerId : String) (now : Nat) : HandleResult :=
  match checkRateLimit limit rl peerId now with
  | (false, rl') => ⟨.rateLimited, false, rl'⟩
  | (true, rl') =>
    if validateRequest req then ⟨.served, true, rl'⟩
    else ⟨.invalidRequest, false, rl'⟩

/-- Run the handler over a sequence of `(request, peer, time)` events,
starting from the given rate-limit map; returns the final map and the
tagged outcomes. -/
def runHandler (limit : Nat) :
    (String → List Nat) → List (ProofRequest × String × Nat) →
      (String → List Nat) × List (HandlerOutcome × String × Nat)
  | rl, [] => (rl, [])
  | rl, (req, peer, tm) :: rest =>
    let r := handleRequest limit rl req peer tm
    let rest' := runHandler limit r.rl rest
    (rest'.1, (r.outcome, peer, tm) :: rest'.2)

/-- Number of timestamps within the window anchored at `now`. -/
def countWindow (ts : List Nat) (now : Nat) : Nat :=
  (ts.filter (fun t => decide (now - t < windowMs))).length

/-- Times of the requests from `peer` that were NOT rate-limited. -/
def passedTimes (outs : List (HandlerOutcome × String × Nat)) (peer : String) :
    List Nat :=
  (outs.filter (fun o => decide (o.2.1 = peer) &&
    decide (o.1 ≠ HandlerOutcome.rateLimited))).map (fun o => o.2.2)

theorem handleRequest_over (limit : Nat) (rl : String → List Nat)
    (req : ProofRequest) (peerId : String) (now : Nat)
    (hover : limit ≤ countWindow (rl peerId) now) :
    handleRequest limit rl req peerId now = ⟨.rateLimited, false, rl⟩ := by
  simp only [countWindow] at hover
  simp only [handleRequest, checkRateLimit]
  rw [if_pos hover]

theorem handleRequest_under (limit : Nat) (rl : String → List Nat)
    (req : ProofRequest) (peerId : String) (now : Nat)
    (hunder : countWindow (rl peerId) now < limit) :
    (handleRequest limit rl req peerId now).outcome ≠ HandlerOutcome.rateLimited ∧
    (handleRequest limit rl req peerId now).storeInvoked = validateRequest req ∧
    (handleRequest limit rl req peerId now).rl =
      fun p => if p = peerId then
        (rl peerId).filter (fun t => decide (now - t < windowMs)) ++ [now]
      else rl p := by
  simp only [countWindow] at hunder
  simp only [handleRequest, checkRateLimit]
  rw [if_neg (by omega)]
  by_cases hv : validateRequest req
  · simp [hv]
  · simp [hv]

theorem passedTimes_append (o₁ o₂ : List (HandlerOutcome × String × Nat))
    (peer : String) :
    passedTimes (o₁ ++ o₂) peer = passedTimes o₁ peer ++ passedTimes o₂ peer := by
  simp [passedTimes, List.filter_append]

theorem length_filter_le_of_imp (l : List Nat) (p q : Nat → Bool)
    (himp : ∀ x ∈ l, p x = true → q x = true) :
    (l.filter p).length ≤ (l.filter q).length := by
  induction l with
  | nil => exact le_refl _
  | cons x xs ih =>
    have himp' : ∀ y ∈ xs, p y = true → q y = true :=
      fun y hy => himp y (List.mem_cons_of_mem x hy)
    cases hp : p x with
    | false =>
      rw [List.filter_cons_of_neg (by simp [hp])]
      cases hq : q x with
      | false =>
        rw [List.filter_cons_of_neg (by simp [hq])]
        exact ih himp'
      | true =>
        rw [List.filter_cons_of_pos (by simp [hq])]
        exact le_trans (ih himp') (by simp)
    | true =>
      rw [List.filter_cons_of_pos (by simp [hp]),
        List.filter_cons_of_pos (by simp [himp x (List.mem_cons_self x xs) hp])]
      simpa using ih himp'

theorem countWindow_filter (X : List Nat) (m t : Nat) (hmt : m ≤ t) :
    countWindow (X.filter (fun x => decide (m - x < windowMs))) t =
      countWindow X t := by
  unfold countWindow
  rw [List.filter_filter]
  congr 1
  apply List.filter_congr
  intro x _
  by_cases hx : t - x < windowMs
  · have hm : m - x < windowMs := by omega
    simp [hx, hm]
  · simp [hx]

theorem runHandler_cons (limit : Nat) (rl : String → List Nat)
    (req : ProofRequest) (peer : String) (tm : Nat)
    (rest : List (ProofRequest × String × Nat)) :
    runHandler limit rl ((req, peer, tm) :: rest) =
      ((runHandler limit (handleRequest limit rl req peer tm).rl rest).1,
       ((handleRequest limit rl req peer tm).outcome, peer, tm) ::
         (runHandler limit (handleRequest limit rl req peer tm).rl rest).2) := rfl

theorem passedTimes_singleton_pass (o : HandlerOutcome) (peer : String) (m : Nat)
    (ho : o ≠ HandlerOutcome.rateLimited) :
    passedTimes [(o, peer, m)] peer = [m] := by
  unfold passedTimes
  rw [List.filter_cons_of_pos]
  · rfl
  · simp [ho]

theorem passedTimes_singleton_rateLimited (peer p₂ : String) (m : Nat) :
    passedTimes [(HandlerOutcome.rateLimited, p₂, m)] peer = [] := by
  unfold passedTimes
  rw [List.filter_cons_of_neg]
  · rfl
  · simp

theorem passedTimes_singleton_other (o : HandlerOutcome) (peer p₂ : String)
    (m : Nat) (hne : peer ≠ p₂) :
    passedTimes [(o, p₂, m)] peer = [] := by
  unfold passedTimes
  rw [List.filter_cons_of_neg]
  · rfl
  · simp [Ne.symm hne]

theorem runHandler_snoc (limit : Nat) (rl : String → List Nat)
    (es : List (ProofRequest × String × Nat)) (e : ProofRequest × String × Nat) :
    runHandler limit rl (es ++ [e]) =
      ((handleRequest limit (runHandler limit rl es).1 e.1 e.2.1 e.2.2).rl,
       (runHandler limit rl es).2 ++
         [((handleRequest limit (runHandler limit rl es).1 e.1 e.2.1 e.2.2).outcome,
           e.2.1, e.2.2)]) := by
  induction es generalizing rl with
  | nil =>
    obtain ⟨req, peer, tm⟩ := e
    rfl
  | cons x xs ih =>
    obtain ⟨req, peer, tm⟩ := x
    simp only [List.cons_append, runHandler_cons, ih]

/-- The stored timestamp list for a peer and the list of times of that
peer's non-rate-limited requests agree on every window anchored at or
after all processed events. -/
theorem runHandler_window_inv (limit : Nat) :
    ∀ events : List (ProofRequest × String × Nat),
      List.Pairwise (fun e₁ e₂ : ProofRequest × String × Nat => e₁.2.2 ≤ e₂.2.2)
        events →
      ∀ peer t, (∀ e ∈ events, e.2.2 ≤ t) →
        countWindow ((runHandler limit (fun _ => []) events).1 peer) t =
          countWindow (passedTimes (runHandler limit (fun _ => []) events).2 peer)
            t := by
  intro events
  induction events using List.reverseRecOn with
  | nil =>
    intro _ peer t _
    rfl
  | append_singleton es e ih =>
    intro hmono peer t ht
    rw [List.pairwise_append] at hmono
    obtain ⟨hmes, -, hcross⟩ := hmono
    obtain ⟨req, peerE, m⟩ := e
    have hmt : m ≤ t := ht (req, peerE, m) (List.mem_append_right _ (by simp))
    have htes : ∀ x ∈ es, x.2.2 ≤ t := fun x hx =>
      ht x (List.mem_append_left _ hx)
    have ihes := ih hmes
    rw [runHandler_snoc]
    simp only [passedTimes_append]
    set S := runHandler limit (fun _ => []) es with hS
    by_cases hover : limit ≤ countWindow (S.1 peerE) m
    · simp only [handleRequest_over limit S.1 req peerE m hover]
      rw [passedTimes_singleton_rateLimited peer peerE m, List.append_nil]
      exact ihes peer t htes
    · have hunder := handleRequest_under limit S.1 req peerE m (by omega)
      have hrl : (handleRequest limit S.1 req peerE m).rl peer =
          (if peer = peerE then
            (S.1 peerE).filter (fun x => decide (m - x < windowMs)) ++ [m]
          else S.1 peer) := by
        rw [hunder.2.2]
      by_cases hpe : peer = peerE
      · subst hpe
        rw [passedTimes_singleton_pass _ peer m hunder.1]
        rw [hrl, if_pos rfl]
        simp only [countWindow, List.filter_append, List.length_append]
        have hleft : countWindow ((S.1 peer).filter
            (fun x => decide (m - x < windowMs))) t = countWindow (S.1 peer) t :=
          countWindow_filter (S.1 peer) m t hmt
        simp only [countWindow] at hleft
        rw [hleft]
        have hmid := ihes peer t htes
        simp only [countWindow] at hmid
        rw [hmid]
      · rw [passedTimes_singleton_other _ peer peerE m hpe, List.append_nil]
        rw [hrl, if_neg hpe]
        exact ihes peer t htes

/-- Sliding-window bound: over any run of the handler, at most `limit`
requests from a peer escape the rate limiter within any sliding window
`(m - windowMs, m]`. -/
theorem runHandler_sliding_bound (limit : Nat) :
    ∀ events : List (ProofRequest × String × Nat),
      List.Pairwise (fun e₁ e₂ : ProofRequest × String × Nat => e₁.2.2 ≤ e₂.2.2)
        events →
      ∀ peer m,
        ((passedTimes (runHandler limit (fun _ => []) events).2 peer).filter
          (fun x => decide (x ≤ m) && decide (m - x < windowMs))).length ≤
          limit := by
  intro events
  induction events using List.reverseRecOn with
  | nil =>
    intro _ peer m
    exact Nat.zero_le _
  | append_singleton es e ih =>
    intro hmono peer m
    rw [List.pairwise_append] at hmono
    obtain ⟨hmes, -, hcross⟩ := hmono
    obtain ⟨req, peerE, mE⟩ := e
    rw [runHandler_snoc]
    simp only [passedTimes_append]
    set S := runHandler limit (fun _ => []) es with hS
    rw [List.filter_append, List.length_append]
    by_cases hover : limit ≤ countWindow (S.1 peerE) mE
    · simp only [handleRequest_over limit S.1 req peerE mE hover]
      rw [passedTimes_singleton_rateLimited peer peerE mE]
      have := ih hmes peer m
      simp only [List.filter_nil, List.length_nil]
      omega
    · have hunder := handleRequest_under limit S.1 req peerE mE (by omega)
      by_cases hpe : peer = peerE
      · subst hpe
        rw [passedTimes_singleton_pass _ peer mE hunder.1]
        by_cases hw : mE ≤ m ∧ m - mE < windowMs
        · have hpred : (decide (mE ≤ m) && decide (m - mE < windowMs)) = true := by
            simp [hw.1, hw.2]
          have hfil : List.filter
              (fun x => decide (x ≤ m) && decide (m - x < windowMs)) [mE] = [mE] := by
            rw [List.filter_cons_of_pos]
            · rfl
            · simp [hpred]
          rw [hfil]
          have hcnt : countWindow (S.1 peer) mE < limit := by omega
          have hes_le : ∀ x ∈ es, x.2.2 ≤ mE := fun x hx =>
            hcross x hx (req, peer, mE) (by simp)
          have hinv := runHandler_window_inv limit es hmes peer mE hes_le
          rw [← hS] at hinv
          have hle : ((passedTimes S.2 peer).filter
              (fun x => decide (x ≤ m) && decide (m - x < windowMs))).length ≤
              countWindow (passedTimes S.2 peer) mE := by
            unfold countWindow
            apply length_filter_le_of_imp
            intro x _ hx
            simp only [Bool.and_eq_true, decide_eq_true_eq] at hx
            simp only [decide_eq_true_eq]
            omega
          simp only [List.length_singleton]
          omega
        · have hpred : (decide (mE ≤ m) && decide (m - mE < windowMs)) = false := by
            rcases not_and_or.mp hw with h | h <;> simp [h]
          have hfil : List.filter
              (fun x => decide (x ≤ m) && decide (m - x < windowMs)) [mE] = [] := by
            rw [List.filter_cons_of_neg]
            · rfl
            · simp [hpred]
          rw [hfil]
          have := ih hmes peer m
          simp only [List.length_nil]
          omega
      · rw [passedTimes_singleton_other _ peer peerE mE hpe]
        have := ih hmes peer m
        simp only [List.filter_nil, List.length_nil]
        omega

/-- C9: for every peer and configured cap, the ProofHandler never lets
more than `limit` PROOF_REQUESTs from that peer past the rate limiter
within any sliding 60-second window; a request arriving when the cap is
already met within the preceding window is answered RATE_LIMITED with
the stored timestamps unchanged and the store not invoked; under the
cap the request is never RATE_LIMITED and reaches the store exactly
when it validates. -/
theorem C9_rate_limit_sliding_window (limit : Nat)
    (events : List (ProofRequest × String × Nat))
    (hmono : List.Pairwise
      (fun e₁ e₂ : ProofRequest × String × Nat => e₁.2.2 ≤ e₂.2.2) events) :
    (∀ peer m,
      ((passedTimes (runHandler limit (fun _ => []) events).2 peer).filter
        (fun x => decide (x ≤ m) && decide (m - x < windowMs))).length ≤
        limit) ∧
    (∀ (rl : String → List Nat) (req : ProofRequest) (peerId : String)
      (now : Nat), limit ≤ countWindow (rl peerId) now →
      handleRequest limit rl req peerId now =
        ⟨HandlerOutcome.rateLimited, false, rl⟩) ∧
    (∀ (rl : String → List Nat) (req : ProofRequest) (peerId : String)
      (now : Nat), countWindow (rl peerId) now < limit →
      (handleRequest limit rl req peerId now).outcome ≠
        HandlerOutcome.rateLimited ∧
      (handleRequest limit rl req peerId now).storeInvoked =
        validateRequest req) :=
  ⟨runHandler_sliding_bound limit events hmono,
   fun rl req peerId now h => handleRequest_over limit rl req peerId now h,
   fun rl req peerId now h =>
     ⟨(handleRequest_under limit rl req peerId now h).1,
      (handleRequest_under limit rl req peerId now h).2.1⟩⟩

/-- A valid request, used by the rate-limit scenario. -/
def exReq : ProofRequest := ⟨"req1", some "commit_0", none⟩

/-- Three requests from one peer within a minute. -/
def exEvents : List (ProofRequest × String × Nat) :=
  [(exReq, "peerX", 0), (exReq, "peerX", 500), (exReq, "peerX", 900)]

theorem C9_rate_limit_sliding_window_witness :
    List.Pairwise
      (fun e₁ e₂ : ProofRequest × String × Nat => e₁.2.2 ≤ e₂.2.2) exEvents ∧
    (∀ peer m,
      ((passedTimes (runHandler 2 (fun _ => []) exEvents).2 peer).filter
        (fun x => decide (x ≤ m) && decide (m - x < windowMs))).length ≤ 2) ∧
    (runHandler 2 (fun _ => []) exEvents).2.map (fun o => o.1) =
      [HandlerOutcome.served, HandlerOutcome.served,
       HandlerOutcome.rateLimited] :=
  ⟨by decide, (C9_rate_limit_sliding_window 2 exEvents (by decide)).1, by rfl⟩

end BsvAnchors
